import Mathlib

namespace RustyPath

structure Coordinate2D where
  x : Int
  y : Int
deriving DecidableEq, Repr

structure GEdge where
  src : Nat
  dst : Nat
  weight : Int
deriving DecidableEq, Repr

structure UnGraph where
  nodes : List Coordinate2D
  edges : List GEdge
deriving DecidableEq, Repr

def addNode (g : UnGraph) (c : Coordinate2D) : UnGraph := ⟨g.nodes ++ [c], g.edges⟩

def addEdge (g : UnGraph) (a b : Nat) (w : Int) : UnGraph := ⟨g.nodes, g.edges ++ [⟨a, b, w⟩]⟩

structure BuildState where
  g : UnGraph
  lastLine : List (Option Nat)

def buildCell (st : BuildState) (lastNode : Option Nat) (x y : Int) : BuildState × Option Nat :=
  let current := st.g.nodes.length
  let g1 := addNode st.g ⟨x, y⟩
  let g2 := match st.lastLine.getD x.toNat none with
            | some above => addEdge g1 current above 1
            | none => g1
  let g3 := match lastNode with
            | some left => addEdge g2 current left 1
            | none => g2
  (⟨g3, st.lastLine.set x.toNat (some current)⟩, some current)

def buildRow (W : Nat) (st : BuildState) (y : Int) : BuildState :=
  ((List.range W).foldl (fun acc xn => buildCell acc.1 acc.2 (Nat.cast xn) y) (st, none)).1

/-- `make_graph`'s node- and edge-building loops (the `while y < field_height`
/ `while x < field_width` nest). The i16 prologue that precedes these loops in
the source (`node_count = field_height * field_width`, `node_count * 2`, the
`as usize` casts fed to `UnGraph::with_capacity` and `vec![None; ..]`) is
modelled separately by `make_graph_debug_panics`, `make_graph_release_panics`
and `make_graph_panics` below: the loops are reached, and this definition is
faithful, exactly when that prologue does not panic — for dimensions at least
1 this means `width * height ≤ 16383`, to which the run-success theorems
restrict themselves. -/
def make_graph (width height : Int) : UnGraph :=
  ((List.range height.toNat).foldl (fun st yn => buildRow width.toNat st (Nat.cast yn))
     ⟨⟨[], []⟩, List.replicate width.toNat none⟩).g

def gridNodes (W n : Nat) : List Coordinate2D :=
  (List.range n).map (fun i => ⟨Nat.cast (i % W), Nat.cast (i / W)⟩)

def cellEdges (W i : Nat) : List GEdge :=
  (if W ≤ i then [⟨i, i - W, 1⟩] else []) ++ (if i % W = 0 then [] else [⟨i, i - 1, 1⟩])

def gridEdges (W n : Nat) : List GEdge :=
  (List.range n).flatMap (cellEdges W)

def lineMid (W k j : Nat) : List (Option Nat) :=
  (List.range W).map (fun x => if x < j then some (k * W + x) else
    if k = 0 then none else some ((k - 1) * W + x))

/-- Two's-complement reinterpretation of a small signed integer as a 64-bit
`usize`, as performed by Rust's `as usize` casts in `make_graph`
(`node_count as usize`, `(node_count * 2) as usize`, `field_width as usize`). -/
def i16ToUsize (v : Int) : Nat := (v % (2 : Int) ^ 64).toNat

/-- A `Vec` allocation of this many elements panics with a capacity overflow:
every element type allocated by `make_graph` occupies at least 4 bytes, so
`2 ^ 61` elements already exceed `isize::MAX` bytes. -/
def allocOverflow (len : Nat) : Prop := 2 ^ 61 ≤ len

/-- The element counts `make_graph` asks the allocator for before its loops
run: node capacity `node_count as usize`, edge capacity `(node_count * 2) as usize`
(both from `UnGraph::with_capacity`), and the length of
`vec![None; field_width as usize]`. -/
def make_graph_allocs (width height : Int) : List Nat :=
  [i16ToUsize (height * width), i16ToUsize (height * width * 2), i16ToUsize width]

/-- `make_graph` panics before building anything when one of its three
prologue allocations overflows. -/
def make_graph_crashes (width height : Int) : Prop :=
  ∃ n ∈ make_graph_allocs width height, allocOverflow n

/-- Two's-complement wrap of an integer result back into the i16 range, the
behaviour of overflowing i16 arithmetic in a release build. -/
def i16Wrap (v : Int) : Int := (v + 32768) % 65536 - 32768

/-- An i16 arithmetic result out of range: a checked (debug) build panics on
the operation that produces it. -/
def i16Overflow (v : Int) : Prop := v < -32768 ∨ 32767 < v

/-- `make_graph`'s prologue panics under a checked build: `node_count =
field_height * field_width` or `node_count * 2` overflows i16, or one of the
three allocation counts computed from the unwrapped values is huge. -/
def make_graph_debug_panics (width height : Int) : Prop :=
  i16Overflow (height * width) ∨ i16Overflow (height * width * 2) ∨
    make_graph_crashes width height

/-- `make_graph`'s prologue panics under a release build: the i16 products
wrap, and one of the wrapped values cast `as usize` asks
`UnGraph::with_capacity` or `vec![None; ..]` for an impossible allocation. -/
def make_graph_release_panics (width height : Int) : Prop :=
  ∃ n ∈ [i16ToUsize (i16Wrap (height * width)),
         i16ToUsize (i16Wrap (i16Wrap (height * width) * 2)),
         i16ToUsize width], allocOverflow n

/-- `make_graph` panics in its prologue in every build mode, so the rest of
the program never runs. -/
def make_graph_panics (width height : Int) : Prop :=
  make_graph_debug_panics width height ∧ make_graph_release_panics width height

/-- The squared radicand of `Coordinate2D::distance`:
`(self.y - other.y).pow(2) + (self.x - self.y).pow(2)`. Note the second term
subtracts `self.y` from `self.x`, not `other.x` from `self.x`. -/
def Coordinate2D.distanceSq (self other : Coordinate2D) : Int :=
  (self.y - other.y) ^ 2 + (self.x - self.y) ^ 2

/-- `self.distance(other).floor() as i32` from `find_path`'s heuristic. The
Rust code squares the two i16 differences, adds them as i16, converts to
`f32` and takes `sqrt().floor()`; this model is the exact value of that
computation only while both squares and their sum stay within i16 (each
difference magnitude at most 181 and radicand at most 32767) — beyond that
the source panics in a checked build or wraps in release. Every theorem that
evaluates the heuristic therefore confines itself to that regime: `C1`
bounds both dimensions by 128 (radicand at most `127^2 + 127^2 = 32258`), and
the C2/C10 instances use single-digit coordinates. For an in-range radicand,
a nonnegative integer below `2^24` is exactly representable in `f32`, its
square root is correctly rounded, and the floor is the integer square root
used here. -/
def Coordinate2D.distanceFloor (self other : Coordinate2D) : Int :=
  Nat.cast (Nat.sqrt (Coordinate2D.distanceSq self other).toNat)

/-- Manhattan distance between two coordinates, the true hop distance on the
4-neighbour grid. -/
def manhattan (a b : Coordinate2D) : Nat :=
  (a.x - b.x).natAbs + (a.y - b.y).natAbs

/-- A coordinate lies in the `[0,width) × [0,height)` rectangle. -/
def inRect (width height : Int) (c : Coordinate2D) : Prop :=
  0 ≤ c.x ∧ c.x < width ∧ 0 ≤ c.y ∧ c.y < height

/-- Payload of node `i`, i.e. `g[i]` on a petgraph node index. -/
def coordAt (g : UnGraph) (i : Nat) : Coordinate2D := g.nodes.getD i ⟨0, 0⟩

/-- `g.neighbors(n)`: petgraph prepends new edges to each endpoint's edge
chain, and for an undirected graph iterates first the chain in which `n` is
the source and then the chain in which it is the target, each newest first. -/
def nbrs (g : UnGraph) (n : Nat) : List Nat :=
  ((g.edges.filter (fun e => e.src = n)).reverse.map GEdge.dst) ++
  ((g.edges.filter (fun e => e.dst = n)).reverse.map GEdge.src)

/-- Undirected adjacency: some stored edge joins `a` and `b` in either
orientation. -/
def Adj (g : UnGraph) (a b : Nat) : Prop :=
  ∃ e ∈ g.edges, (e.src = a ∧ e.dst = b) ∨ (e.src = b ∧ e.dst = a)

/-- A walk of `n` hops from `a` to `b` along stored edges. -/
inductive IsWalk (g : UnGraph) : Nat → Nat → Nat → Prop where
  | nil (a : Nat) : IsWalk g a a 0
  | cons {a b c n : Nat} (h : Adj g a b) (tail : IsWalk g b c n) : IsWalk g a c (n + 1)

/-- `m` is the length of a shortest walk from `s` to `t`. -/
def SPath (g : UnGraph) (s t m : Nat) : Prop :=
  IsWalk g s t m ∧ ∀ n, IsWalk g s t n → m ≤ n

/-- State of petgraph's `astar`: the `visit_next` priority queue of
`(estimate score, node)` pairs, the `scores` map of g-scores, the
`estimate_scores` map of f-scores of expanded nodes, and the `path_tracker`
predecessor map. -/
structure AState where
  queue : List (Int × Nat)
  scores : Nat → Option Int
  ests : Nat → Option Int
  pred : Nat → Option Nat

/-- Remove a minimal-score entry from the queue, preferring the earliest
pushed among ties. `BinaryHeap::pop` removes some minimal `MinScored` entry;
tie order is unspecified there, and this model fixes one admissible choice. -/
def popMin : List (Int × Nat) → Option ((Int × Nat) × List (Int × Nat))
  | [] => none
  | e :: rest =>
    match popMin rest with
    | none => some (e, [])
    | some (m, rest') => if e.1 ≤ m.1 then some (e, rest) else some (m, e :: rest')

/-- `PathTracker::reconstruct_path_to`: follow predecessors back from `n`
and return the vertices from the start to `n`. The fuel bounds the number of
predecessor steps; callers supply at least the chain length. -/
def reconstruct (pred : Nat → Option Nat) : Nat → Nat → List Nat
  | 0, n => [n]
  | fuel + 1, n =>
    match pred n with
    | none => [n]
    | some p => reconstruct pred fuel p ++ [n]

/-- One relaxation of `astar`'s edge loop: `next_score = node_score + 1`
(every edge costs 1 in this program); on improvement record score and
predecessor and push `(next_score + estimate, target)`. -/
def relaxOne (hf : Nat → Int) (u : Nat) (gu : Int) (st : AState) (v : Nat) : AState :=
  let next := gu + 1
  match st.scores v with
  | some old =>
    if next < old then
      ⟨st.queue ++ [(next + hf v, v)],
       fun n => if n = v then some next else st.scores n,
       st.ests,
       fun n => if n = v then some u else st.pred n⟩
    else st
  | none =>
      ⟨st.queue ++ [(next + hf v, v)],
       fun n => if n = v then some next else st.scores n,
       st.ests,
       fun n => if n = v then some u else st.pred n⟩

/-- Successful expansion of a popped node: record its estimate score and
relax every incident edge. -/
def expand (g : UnGraph) (hf : Nat → Int) (u : Nat) (f0 : Int) (st : AState) : AState :=
  let gu := (st.scores u).getD 0
  (nbrs g u).foldl (relaxOne hf u gu)
    ⟨st.queue, st.scores, fun n => if n = u then some f0 else st.ests n, st.pred⟩

/-- The `while let Some(..) = visit_next.pop()` loop of petgraph's `astar`:
pop a minimal entry; a goal node returns `(scores[node], reconstructed path)`;
a node already expanded with an estimate no worse than the popped one is
skipped; otherwise the node is expanded. Fuel replaces the termination
argument; `astarFuel` below always suffices. -/
def astarLoop (g : UnGraph) (goalP : Nat → Bool) (hf : Nat → Int) :
    Nat → AState → Option (Int × List Nat)
  | 0, _ => none
  | fuel + 1, st =>
    match popMin st.queue with
    | none => none
    | some ((f0, u), q') =>
      if goalP u then
        let cost := (st.scores u).getD 0
        some (cost, reconstruct st.pred cost.toNat u)
      else
        match st.ests u with
        | some e =>
          if e ≤ f0 then astarLoop g goalP hf fuel ⟨q', st.scores, st.ests, st.pred⟩
          else astarLoop g goalP hf fuel (expand g hf u f0 ⟨q', st.scores, st.ests, st.pred⟩)
        | none => astarLoop g goalP hf fuel (expand g hf u f0 ⟨q', st.scores, st.ests, st.pred⟩)

/-- Enough fuel for `astarLoop` on `g`: strictly more than the loop's
decreasing measure can start at. -/
def astarFuel (g : UnGraph) : Nat :=
  2 * (g.nodes.length + 2) * g.nodes.length + 2

/-- `petgraph::algo::astar` as called by `find_path`: the queue starts with
`(estimate_cost(start), start)` and `scores = {start: 0}`. -/
def astar (g : UnGraph) (start : Nat) (goalP : Nat → Bool) (hf : Nat → Int) :
    Option (Int × List Nat) :=
  astarLoop g goalP hf (astarFuel g)
    ⟨[(hf start, start)],
     fun n => if n = start then some 0 else none,
     fun _ => none,
     fun _ => none⟩

/-- `find_path`: look up the first node whose payload equals `start`
(`g.node_indices().find(|x| g[*x] == start)`); if none, return `None`,
otherwise run `astar` with goal test `g[x] == end`, edge cost `1` and
estimate `end.distance(g[x]).floor() as i32`. -/
def find_path (g : UnGraph) (start end_ : Coordinate2D) : Option (Int × List Nat) :=
  match (List.range g.nodes.length).find? (fun i => decide (coordAt g i = start)) with
  | some start_index =>
      astar g start_index (fun n => decide (coordAt g n = end_))
        (fun n => Coordinate2D.distanceFloor end_ (coordAt g n))
  | none => none

/-- State of `petgraph::visit::Bfs`: the `VecDeque` of pending nodes and the
discovered set. -/
structure BfsState where
  stack : List Nat
  discovered : Nat → Bool

/-- Processing a popped node: each undiscovered neighbour is marked
discovered and pushed at the back of the queue. -/
def bfsVisit (g : UnGraph) (u : Nat) (st : BfsState) : BfsState :=
  (nbrs g u).foldl
    (fun acc v =>
      if acc.discovered v then acc
      else ⟨acc.stack ++ [v], fun n => if n = v then true else acc.discovered n⟩)
    st

/-- The folding step of `bfsVisit` over an arbitrary neighbour list, split
out so that it can be analysed by list induction. -/
def bfsFold (l : List Nat) (st : BfsState) : BfsState :=
  l.foldl
    (fun acc v =>
      if acc.discovered v then acc
      else ⟨acc.stack ++ [v], fun n => if n = v then true else acc.discovered n⟩)
    st

/-- `Bfs::next`: pop the front of the queue, enqueue its undiscovered
neighbours, and report the popped node. -/
def bfsNext (g : UnGraph) (st : BfsState) : Option (Nat × BfsState) :=
  match st.stack with
  | [] => none
  | u :: rest => some (u, bfsVisit g u ⟨rest, st.discovered⟩)

/-- The sequence of nodes a `while let Some(nx) = bfs.next(&g)` loop visits,
with fuel standing in for the termination argument. -/
def bfsRun (g : UnGraph) : Nat → BfsState → List Nat
  | 0, _ => []
  | fuel + 1, st =>
    match bfsNext g st with
    | none => []
    | some (u, st') => u :: bfsRun g fuel st'

/-- `Bfs::new(&g, root)` followed by draining the iterator: the root starts
discovered and queued. `2 * |nodes|` fuel always outlasts the loop. -/
def bfsOrder (g : UnGraph) (root : Nat) : List Nat :=
  bfsRun g (2 * g.nodes.length) ⟨[root], fun n => n == root⟩

/-- The edge-list loop of `graph_to_json`: walk the BFS order from the first
node index; for each neighbour push `(coord, ncoord)` unless the reverse
tuple `(ncoord, coord)` was already recorded. -/
def jsonEdges (g : UnGraph) : List (Coordinate2D × Coordinate2D) :=
  (bfsOrder g 0).foldl
    (fun acc u =>
      (nbrs g u).foldl
        (fun acc2 v =>
          if (coordAt g v, coordAt g u) ∈ acc2 then acc2
          else acc2 ++ [(coordAt g u, coordAt g v)])
        acc)
    []

/-- The flattened output of `graph_to_json`: the node array collects
`g.node_indices().map(|i| g[i])`, the edge array is the deduplicated BFS
edge list, and the path array maps the search result's node handles to
coordinates. -/
structure JsonOut where
  nodes : List Coordinate2D
  edges : List (Coordinate2D × Coordinate2D)
  path : Option (List Coordinate2D)
deriving DecidableEq, Repr

/-- `graph_to_json`. `Bfs::new(&g, g.node_indices().next().unwrap())` panics
when the graph has no nodes; `none` models that panic. -/
def graph_to_json (g : UnGraph) (path : Option (Int × List Nat)) : Option JsonOut :=
  if g.nodes.length = 0 then none
  else
    some ⟨g.nodes, jsonEdges g, path.map (fun p => p.2.map (coordAt g))⟩

/-- The per-edge line primitives emitted by `graph_to_svg`'s BFS loop, each
tagged with the on-path flag decided by
`path.1.contains(&neighbor) && path.1.contains(&nx)` (green stroke vs black). -/
def svgLines (g : UnGraph) (path : Option (Int × List Nat)) :
    List ((Nat × Nat) × Bool) :=
  (bfsOrder g 0).foldl
    (fun acc u =>
      acc ++ (nbrs g u).map (fun v =>
        ((u, v),
         match path with
         | some p => p.2.contains v && p.2.contains u
         | none => false)))
    []

/-- Number of stored edges incident to node `n` (loops counted once), the
degree of `n` in the built graph. -/
def degree (g : UnGraph) (n : Nat) : Nat :=
  g.edges.countP (fun e => e.src == n || e.dst == n)

/-- One 4-neighbour grid step: the coordinates agree in one component and
differ by exactly one in the other. -/
def unitStep (a b : Coordinate2D) : Prop :=
  (a.x = b.x ∧ (a.y - b.y).natAbs = 1) ∨ (a.y = b.y ∧ (a.x - b.x).natAbs = 1)

/-- Loop invariant of `astarLoop`, the heart of the `astar` correctness
argument. `scores` are costs of actual walks; nodes recorded in `ests` (the
expanded ones) carry exact shortest distances and have relaxed all their
neighbours; every scored, unexpanded node still has its exact entry in the
queue. -/
structure AInv (g : UnGraph) (s : Nat) (goalP : Nat → Bool) (hf : Nat → Int)
    (st : AState) : Prop where
  sound : ∀ n x, st.scores n = some x → 0 ≤ x ∧ IsWalk g s n x.toNat
  startScore : st.scores s = some 0
  startPred : st.pred s = none
  predAdj : ∀ n p, st.pred n = some p →
    Adj g p n ∧ ∃ xn xp, st.scores n = some xn ∧ st.scores p = some xp ∧ xp + 1 ≤ xn
  predNone : ∀ n x, st.scores n = some x → st.pred n = none → n = s
  queueScore : ∀ e ∈ st.queue, ∃ x, st.scores e.2 = some x ∧ x + hf e.2 ≤ e.1
  scoredLt : ∀ n x, st.scores n = some x → n < g.nodes.length
  estsDist : ∀ u e, st.ests u = some e → ∃ x, st.scores u = some x ∧ SPath g s u x.toNat
  estsNbrs : ∀ u e, st.ests u = some e → ∀ v, Adj g u v →
    ∃ xv du, st.scores v = some xv ∧ SPath g s u du ∧ xv ≤ (du : Int) + 1
  estsNotGoal : ∀ u e, st.ests u = some e → goalP u = false
  inQueue : ∀ n x, st.scores n = some x → st.ests n ≠ none ∨ (x + hf n, n) ∈ st.queue

/-- Invariant holding midway through `expand`'s relaxation fold: all `AInv`
fields except that the just-expanded node `u` has only promised relaxation of
the still-pending neighbours `todo`; `u`'s score `x` is pinned to its exact
shortest distance. -/
structure AExpandInv (g : UnGraph) (s : Nat) (goalP : Nat → Bool) (hf : Nat → Int)
    (u : Nat) (x : Int) (todo : List Nat) (st : AState) : Prop where
  sound : ∀ n y, st.scores n = some y → 0 ≤ y ∧ IsWalk g s n y.toNat
  startScore : st.scores s = some 0
  startPred : st.pred s = none
  predAdj : ∀ n p, st.pred n = some p →
    Adj g p n ∧ ∃ xn xp, st.scores n = some xn ∧ st.scores p = some xp ∧ xp + 1 ≤ xn
  predNone : ∀ n y, st.scores n = some y → st.pred n = none → n = s
  queueScore : ∀ e ∈ st.queue, ∃ y, st.scores e.2 = some y ∧ y + hf e.2 ≤ e.1
  scoredLt : ∀ n y, st.scores n = some y → n < g.nodes.length
  estsDist : ∀ w e, st.ests w = some e → ∃ y, st.scores w = some y ∧ SPath g s w y.toNat
  estsNbrsP : ∀ w e, st.ests w = some e → ∀ v, Adj g w v →
    (w = u ∧ v ∈ todo) ∨
      ∃ xv du, st.scores v = some xv ∧ SPath g s w du ∧ xv ≤ (du : Int) + 1
  estsNotGoal : ∀ w e, st.ests w = some e → goalP w = false
  inQueue : ∀ n y, st.scores n = some y → st.ests n ≠ none ∨ (y + hf n, n) ∈ st.queue
  scoreU : st.scores u = some x
  distU : SPath g s u x.toNat

/-- Potential of a node in the termination measure: unscored nodes carry the
budget `B`, scored ones their current (only ever decreasing) score. -/
def scorePot (B : Nat) (st : AState) (n : Nat) : Nat :=
  match st.scores n with
  | none => B
  | some x => x.toNat

/-- Termination measure of `astarLoop`: every iteration strictly decreases it. -/
def measureA (B N : Nat) (st : AState) : Nat :=
  2 * ((List.range N).map (scorePot B st)).sum + st.queue.length

/-- Loop invariant of the BFS driver: discovered = popped plus queued, no
node appears twice, and every popped node has discovered all its neighbours. -/
structure BfsInv (g : UnGraph) (popped : List Nat) (st : BfsState) : Prop where
  discIff : ∀ n, st.discovered n = true ↔ n ∈ popped ∨ n ∈ st.stack
  nodup : (popped ++ st.stack).Nodup
  poppedClosed : ∀ u ∈ popped, ∀ v, Adj g u v → st.discovered v = true
  discLt : ∀ n, st.discovered n = true → n < g.nodes.length

/-- Termination measure of the BFS loop. -/
def measureB (N : Nat) (st : BfsState) : Nat :=
  st.stack.length + 2 * ((List.range N).countP (fun n => ! st.discovered n))

/-- Loop invariant of `graph_to_json`'s edge-collecting double loop, after the
BFS has visited the nodes in `done`: the accumulator holds exactly one
orientation of each graph edge with an endpoint in `done`, with no duplicate
and no reversed duplicate. -/
structure JInv (g : UnGraph) (done : List Nat)
    (acc : List (Coordinate2D × Coordinate2D)) : Prop where
  entries : ∀ p ∈ acc, ∃ a b : Nat, a ∈ done ∧ a < g.nodes.length ∧
    b < g.nodes.length ∧ Adj g a b ∧ p = (coordAt g a, coordAt g b)
  cover : ∀ a b : Nat, Adj g a b → a ∈ done →
    (coordAt g a, coordAt g b) ∈ acc ∨ (coordAt g b, coordAt g a) ∈ acc
  norev : ∀ p q : Coordinate2D, (p, q) ∈ acc → (q, p) ∉ acc
  nodup : acc.Nodup
  count : acc.length = g.edges.countP
    (fun e => decide (e.src ∈ done) || decide (e.dst ∈ done))

theorem gridNodes_length (W n : Nat) : (gridNodes W n).length = n := by
  simp [gridNodes]

theorem gridNodes_succ (W n : Nat) :
    gridNodes W (n + 1) = gridNodes W n ++ [⟨Nat.cast (n % W), Nat.cast (n / W)⟩] := by
  simp [gridNodes, List.range_succ]

theorem gridEdges_succ (W n : Nat) :
    gridEdges W (n + 1) = gridEdges W n ++ cellEdges W n := by
  simp [gridEdges, List.range_succ]

theorem lineMid_getD (W k j x : Nat) (hx : x < W) :
    (lineMid W k j).getD x none = (if x < j then some (k * W + x) else
      if k = 0 then none else some ((k - 1) * W + x)) := by
  simp [lineMid, List.getD, List.getElem?_map, List.getElem?_range, hx]

theorem lineMid_set (W k j : Nat) (hj : j < W) :
    (lineMid W k j).set j (some (k * W + j)) = lineMid W k (j + 1) := by
  have hlen : (lineMid W k j).length = W := by simp [lineMid]
  apply List.ext_getElem?
  intro i
  by_cases h : i = j
  · subst h
    rw [List.getElem?_set_self (by rw [hlen]; exact hj)]
    simp [lineMid, List.getElem?_map, List.getElem?_range, hj]
  · rw [List.getElem?_set_ne (fun he => h he.symm)]
    by_cases hi : i < W
    · simp only [lineMid, List.getElem?_map, List.getElem?_range, hi, if_pos hi,
        Option.map_some']
      have hiff : i < j + 1 ↔ i < j := by omega
      simp [hiff]
    · have : (List.range W)[i]? = none := by
        rw [List.getElem?_eq_none]
        simpa using Nat.le_of_not_lt hi
      simp [lineMid, this]

theorem mod_eq (W k j : Nat) (hj : j < W) : (k * W + j) % W = j := by
  rw [Nat.add_comm, Nat.add_mul_mod_self_right]
  exact Nat.mod_eq_of_lt hj

theorem div_eq (W k j : Nat) (hj : j < W) : (k * W + j) / W = k := by
  rw [Nat.add_comm, Nat.add_mul_div_right _ _ (by omega : 0 < W)]
  rw [Nat.div_eq_of_lt hj]
  omega

theorem buildCell_mid (W k j : Nat) (hj : j < W) :
    buildCell ⟨⟨gridNodes W (k * W + j), gridEdges W (k * W + j)⟩, lineMid W k j⟩
      (if j = 0 then none else some (k * W + j - 1)) (Nat.cast j) (Nat.cast k)
    = (⟨⟨gridNodes W (k * W + j + 1), gridEdges W (k * W + j + 1)⟩, lineMid W k (j + 1)⟩,
       some (k * W + j)) := by
  have hWk : W ≤ k * W ∨ k = 0 := by
    rcases Nat.eq_zero_or_pos k with h | h
    · exact Or.inr h
    · exact Or.inl (by calc W = 1 * W := (one_mul W).symm
                      _ ≤ k * W := Nat.mul_le_mul_right W h)
  have hnodes : gridNodes W (k * W + j + 1)
      = gridNodes W (k * W + j) ++ [⟨Nat.cast j, Nat.cast k⟩] := by
    rw [gridNodes_succ, mod_eq W k j hj, div_eq W k j hj]
  have hcell : cellEdges W (k * W + j)
      = (if k = 0 then [] else [⟨k * W + j, (k - 1) * W + j, 1⟩]) ++
        (if j = 0 then [] else [⟨k * W + j, k * W + j - 1, 1⟩]) := by
    unfold cellEdges
    rw [mod_eq W k j hj]
    congr 1
    by_cases hk : k = 0
    · subst hk
      rw [if_neg (by omega), if_pos rfl]
    · rcases hWk with h | h
      · rw [if_pos (by omega), if_neg hk]
        have h2 : k * W + j - W = (k - 1) * W + j := by
          rw [Nat.sub_one_mul]; omega
        rw [h2]
      · omega
  have hlen : (gridNodes W (k * W + j)).length = k * W + j := gridNodes_length _ _
  have ht : ((j : Int)).toNat = j := rfl
  have hgetD : (lineMid W k j).getD ((j : Int)).toNat none
      = (if k = 0 then none else some ((k - 1) * W + j)) := by
    rw [ht, lineMid_getD W k j j hj]
    simp
  have hset : (lineMid W k j).set ((j : Int)).toNat (some (k * W + j)) = lineMid W k (j + 1) := by
    rw [ht, lineMid_set W k j hj]
  rw [gridEdges_succ, hcell]
  by_cases hk : k = 0 <;> by_cases hj0 : j = 0
  · simp only [buildCell, addNode, addEdge, hlen, hgetD, hset, if_pos hk, if_pos hj0]
    rw [hnodes]
    simp
  · simp only [buildCell, addNode, addEdge, hlen, hgetD, hset, if_pos hk, if_neg hj0]
    rw [hnodes]
    simp
  · simp only [buildCell, addNode, addEdge, hlen, hgetD, hset, if_neg hk, if_pos hj0]
    rw [hnodes]
    simp
  · simp only [buildCell, addNode, addEdge, hlen, hgetD, hset, if_neg hk, if_neg hj0]
    rw [hnodes]
    simp [List.append_assoc]


theorem buildRow_fold (W k : Nat) : ∀ j, j ≤ W →
    ((List.range j).foldl (fun acc xn => buildCell acc.1 acc.2 (Nat.cast xn) (Nat.cast k))
      (⟨⟨gridNodes W (k * W), gridEdges W (k * W)⟩, lineMid W k 0⟩, none))
    = (⟨⟨gridNodes W (k * W + j), gridEdges W (k * W + j)⟩, lineMid W k j⟩,
       if j = 0 then none else some (k * W + j - 1)) := by
  intro j
  induction j with
  | zero => intro _; simp
  | succ j ih =>
    intro hj
    rw [List.range_succ, List.foldl_append, ih (by omega)]
    simp only [List.foldl_cons, List.foldl_nil]
    have := buildCell_mid W k j (by omega)
    rw [this]
    have hne : ¬(j + 1 = 0) := by omega
    rw [if_neg hne]
    congr 1

theorem buildRow_eq (W k : Nat) :
    buildRow W ⟨⟨gridNodes W (k * W), gridEdges W (k * W)⟩, lineMid W k 0⟩ (Nat.cast k)
    = ⟨⟨gridNodes W ((k + 1) * W), gridEdges W ((k + 1) * W)⟩, lineMid W (k + 1) 0⟩ := by
  unfold buildRow
  rw [buildRow_fold W k W le_rfl]
  have h1 : k * W + W = (k + 1) * W := by ring
  have h2 : lineMid W k W = lineMid W (k + 1) 0 := by
    unfold lineMid
    apply List.map_congr_left
    intro x hx
    rw [List.mem_range] at hx
    simp only [if_pos hx, if_neg (by omega : ¬ x < 0), if_neg (by omega : ¬ k + 1 = 0),
      Nat.add_sub_cancel]
  rw [h1, h2]

theorem rows_fold (W : Nat) : ∀ k,
    ((List.range k).foldl (fun st yn => buildRow W st (Nat.cast yn))
      ⟨⟨[], []⟩, List.replicate W none⟩)
    = ⟨⟨gridNodes W (k * W), gridEdges W (k * W)⟩, lineMid W k 0⟩ := by
  intro k
  induction k with
  | zero =>
    simp only [List.range_zero, List.foldl_nil]
    have h1 : gridNodes W 0 = [] := by simp [gridNodes]
    have h2 : gridEdges W 0 = [] := by simp [gridEdges]
    have h3 : lineMid W 0 0 = List.replicate W none := by
      unfold lineMid
      have : ∀ x ∈ List.range W, (if x < 0 then some (0 * W + x) else
          if (0 : Nat) = 0 then none else some ((0 - 1) * W + x)) = (none : Option Nat) := by
        intro x _
        rw [if_neg (by omega), if_pos rfl]
      rw [List.map_congr_left this]
      simp [List.map_const']
    rw [h3]
    simp [h1, h2]
  | succ k ih =>
    rw [List.range_succ, List.foldl_append, ih]
    simp only [List.foldl_cons, List.foldl_nil]
    exact buildRow_eq W k

theorem make_graph_eq (width height : Int) :
    make_graph width height
    = ⟨gridNodes width.toNat (height.toNat * width.toNat),
       gridEdges width.toNat (height.toNat * width.toNat)⟩ := by
  unfold make_graph
  rw [rows_fold width.toNat height.toNat]

theorem make_graph_nodes (width height : Int) :
    (make_graph width height).nodes = gridNodes width.toNat (height.toNat * width.toNat) := by
  rw [make_graph_eq]

theorem make_graph_edges (width height : Int) :
    (make_graph width height).edges = gridEdges width.toNat (height.toNat * width.toNat) := by
  rw [make_graph_eq]

theorem make_graph_nodes_length (width height : Int) :
    (make_graph width height).nodes.length = height.toNat * width.toNat := by
  rw [make_graph_nodes, gridNodes_length]

theorem gridNodes_getD {W n i : Nat} (hi : i < n) :
    (gridNodes W n).getD i ⟨0, 0⟩ = ⟨Nat.cast (i % W), Nat.cast (i / W)⟩ := by
  simp [gridNodes, List.getD, List.getElem?_map, List.getElem?_range, hi]

theorem coordAt_make_graph {width height : Int} {i : Nat}
    (hi : i < height.toNat * width.toNat) :
    coordAt (make_graph width height) i
      = ⟨Nat.cast (i % width.toNat), Nat.cast (i / width.toNat)⟩ := by
  rw [coordAt, make_graph_nodes, gridNodes_getD hi]

theorem mem_gridEdges {W n : Nat} {e : GEdge} :
    e ∈ gridEdges W n ↔
      ∃ i, i < n ∧ ((W ≤ i ∧ e = ⟨i, i - W, 1⟩) ∨ (i % W ≠ 0 ∧ e = ⟨i, i - 1, 1⟩)) := by
  unfold gridEdges cellEdges
  simp only [List.mem_flatMap, List.mem_range, List.mem_append]
  constructor
  · rintro ⟨i, hi, hmem⟩
    refine ⟨i, hi, ?_⟩
    rcases hmem with hmem | hmem
    · by_cases hW : W ≤ i
      · rw [if_pos hW] at hmem
        simp only [List.mem_singleton] at hmem
        exact Or.inl ⟨hW, hmem⟩
      · rw [if_neg hW] at hmem
        simp at hmem
    · by_cases hm : i % W = 0
      · rw [if_pos hm] at hmem
        simp at hmem
      · rw [if_neg hm] at hmem
        simp only [List.mem_singleton] at hmem
        exact Or.inr ⟨hm, hmem⟩
  · rintro ⟨i, hi, h | h⟩
    · exact ⟨i, hi, Or.inl (by rw [if_pos h.1]; simp [h.2])⟩
    · exact ⟨i, hi, Or.inr (by rw [if_neg h.1]; simp [h.2])⟩

theorem Adj.symm {g : UnGraph} {a b : Nat} (h : Adj g a b) : Adj g b a := by
  obtain ⟨e, he, h⟩ := h
  exact ⟨e, he, h.symm⟩

theorem mem_nbrs {g : UnGraph} {a b : Nat} : b ∈ nbrs g a ↔ Adj g a b := by
  unfold nbrs Adj
  simp only [List.mem_append, List.mem_map, List.mem_reverse, List.mem_filter,
    decide_eq_true_eq]
  constructor
  · rintro (⟨e, ⟨he, hsrc⟩, rfl⟩ | ⟨e, ⟨he, hdst⟩, rfl⟩)
    · exact ⟨e, he, Or.inl ⟨hsrc, rfl⟩⟩
    · exact ⟨e, he, Or.inr ⟨rfl, hdst⟩⟩
  · rintro ⟨e, he, ⟨hsrc, rfl⟩ | ⟨rfl, hdst⟩⟩
    · exact Or.inl ⟨e, ⟨he, hsrc⟩, rfl⟩
    · exact Or.inr ⟨e, ⟨he, hdst⟩, rfl⟩

theorem gridNodes_zero (W : Nat) : gridNodes W 0 = [] := by simp [gridNodes]

theorem gridEdges_zero (W : Nat) : gridEdges W 0 = [] := by simp [gridEdges]

theorem make_graph_zero {width height : Int} (hz : width = 0 ∨ height = 0) :
    make_graph width height = ⟨[], []⟩ := by
  have h : height.toNat * width.toNat = 0 := by
    rcases hz with h | h <;> subst h <;> simp
  rw [make_graph_eq, h, gridNodes_zero, gridEdges_zero]

theorem find_path_no_start {g : UnGraph} {start goal : Coordinate2D}
    (h : ∀ c ∈ g.nodes, c ≠ start) : find_path g start goal = none := by
  unfold find_path
  have hfind : (List.range g.nodes.length).find?
      (fun i => decide (coordAt g i = start)) = none := by
    rw [List.find?_eq_none]
    intro i hi
    rw [List.mem_range] at hi
    have hmem : coordAt g i ∈ g.nodes := by
      rw [coordAt, List.getD_eq_getElem _ _ hi]
      exact List.getElem_mem hi
    simpa using h _ hmem
  rw [hfind]

theorem foldl_append_eq_flatMap {α β : Type} (f : α → List β) :
    ∀ (l : List α) (init : List β),
      l.foldl (fun acc u => acc ++ f u) init = init ++ l.flatMap f := by
  intro l
  induction l with
  | nil => intro init; simp
  | cons a l ih =>
    intro init
    simp only [List.foldl_cons, List.flatMap_cons, ih, List.append_assoc]

/-- C10: the heuristic formula `sqrt((self.y - other.y)^2 + (self.x - self.y)^2)`
used by `find_path` (with `self` the goal) never reads the node's `x`
coordinate: two nodes with equal `y` get identical estimates, and the second
term of the radicand is `(goal.x - goal.y)^2`, a function of the goal alone. -/
theorem C10_heuristic_ignores_node_x (end_ a b : Coordinate2D) (hy : a.y = b.y) :
    Coordinate2D.distanceSq end_ a = Coordinate2D.distanceSq end_ b ∧
    Coordinate2D.distanceFloor end_ a = Coordinate2D.distanceFloor end_ b ∧
    Coordinate2D.distanceSq end_ a = (end_.y - a.y) ^ 2 + (end_.x - end_.y) ^ 2 := by
  unfold Coordinate2D.distanceFloor Coordinate2D.distanceSq
  rw [hy]
  exact ⟨rfl, rfl, rfl⟩

theorem C10_witness :
    (⟨0, 5⟩ : Coordinate2D).y = (⟨9, 5⟩ : Coordinate2D).y ∧
    (Coordinate2D.distanceSq ⟨2, 7⟩ ⟨0, 5⟩ = Coordinate2D.distanceSq ⟨2, 7⟩ ⟨9, 5⟩ ∧
     Coordinate2D.distanceFloor ⟨2, 7⟩ ⟨0, 5⟩ = Coordinate2D.distanceFloor ⟨2, 7⟩ ⟨9, 5⟩ ∧
     Coordinate2D.distanceSq ⟨2, 7⟩ ⟨0, 5⟩
       = ((⟨2, 7⟩ : Coordinate2D).y - (⟨0, 5⟩ : Coordinate2D).y) ^ 2 +
         ((⟨2, 7⟩ : Coordinate2D).x - (⟨2, 7⟩ : Coordinate2D).y) ^ 2) :=
  ⟨rfl, C10_heuristic_ignores_node_x ⟨2, 7⟩ ⟨0, 5⟩ ⟨9, 5⟩ rfl⟩

/-- C2 (code-bug exhibit): on the 2×1 grid with goal `(1,0)`, the estimate
`end.distance(g[n]).floor() as i32` is `1` at the goal node itself, while the
true remaining hop count there is `0`; the heuristic the code actually uses
overestimates and is not admissible. -/
theorem C2_heuristic_not_admissible :
    coordAt (make_graph 2 1) 1 = ⟨1, 0⟩ ∧
    Coordinate2D.distanceFloor ⟨1, 0⟩ (coordAt (make_graph 2 1) 1) = 1 ∧
    SPath (make_graph 2 1) 1 1 0 := by
  refine ⟨by decide, by decide, IsWalk.nil 1, fun n _ => Nat.zero_le n⟩

/-- C4 (code-bug exhibit): for any in-range i16 dimensions with
`width < 0`, or `height < 0` with `0 < width`, one of the three prologue
allocations of `make_graph` reinterprets a negative i16 as a huge `usize`
and panics with a capacity overflow instead of clamping to an empty graph. -/
theorem C4_negative_dims_crash (width height : Int)
    (hwlo : -32768 ≤ width) (hwhi : width < 32768)
    (hhlo : -32768 ≤ height) (hhhi : height < 32768)
    (hneg : width < 0 ∨ (height < 0 ∧ 0 < width)) :
    make_graph_crashes width height := by
  have h64 : (2 : Int) ^ 64 = 18446744073709551616 := by norm_num
  unfold make_graph_crashes make_graph_allocs allocOverflow i16ToUsize
  rcases hneg with hw | ⟨hh, hw⟩
  · refine ⟨(width % (2 : Int) ^ 64).toNat, by simp, ?_⟩
    rw [h64]
    omega
  · refine ⟨((height * width) % (2 : Int) ^ 64).toNat, by simp, ?_⟩
    have hp1 : height * width < 0 := mul_neg_of_neg_of_pos hh hw
    have hp2 : -1073741824 ≤ height * width := by nlinarith
    rw [h64]
    omega

theorem C4_witness : make_graph_crashes (-1) 1 :=
  C4_negative_dims_crash (-1) 1 (by norm_num) (by norm_num) (by norm_num)
    (by norm_num) (Or.inl (by norm_num))

/-- C6: when no node of the graph carries the start coordinate, `find_path`
returns `None` (the `node_indices().find(..)` lookup fails), whatever the
goal is. -/
theorem C6_missing_start_none (g : UnGraph) (start goal : Coordinate2D)
    (h : ∀ c ∈ g.nodes, c ≠ start) : find_path g start goal = none :=
  find_path_no_start h

theorem C6_witness :
    (∀ c ∈ (make_graph 2 2).nodes, c ≠ (⟨5, 0⟩ : Coordinate2D)) ∧
    find_path (make_graph 2 2) ⟨5, 0⟩ ⟨1, 1⟩ = none :=
  ⟨by decide, C6_missing_start_none (make_graph 2 2) ⟨5, 0⟩ ⟨1, 1⟩ (by decide)⟩

/-- C3 (code-bug exhibit): for a zero-area grid the builder does produce the
empty graph and `find_path` the absent result, but `graph_to_json` calls
`g.node_indices().next().unwrap()` on the empty graph and panics (modelled by
`none`) instead of emitting empty node and edge lists. -/
theorem C3_zero_area (width height : Int) (hz : width = 0 ∨ height = 0)
    (start goal : Coordinate2D) (p : Option (Int × List Nat)) :
    make_graph width height = ⟨[], []⟩ ∧
    find_path (make_graph width height) start goal = none ∧
    graph_to_json (make_graph width height) p = none := by
  have hempty := make_graph_zero hz
  refine ⟨hempty, ?_, ?_⟩
  · apply find_path_no_start
    rw [hempty]
    intro c hc
    simp at hc
  · rw [hempty, graph_to_json]
    simp

theorem C3_witness :
    ((0 : Int) = 0 ∨ (3 : Int) = 0) ∧
    (make_graph 0 3 = ⟨[], []⟩ ∧
     find_path (make_graph 0 3) ⟨0, 0⟩ ⟨0, 0⟩ = none ∧
     graph_to_json (make_graph 0 3) none = none) :=
  ⟨Or.inl rfl, C3_zero_area 0 3 (Or.inl rfl) ⟨0, 0⟩ ⟨0, 0⟩ none⟩

/-- C9: every line primitive `graph_to_svg` emits for an edge `(nx, neighbor)`
is drawn in the on-path style exactly when both endpoint handles occur
anywhere in the search result's node sequence — endpoint membership, not
adjacency inside the path. -/
theorem C9_on_path_marking (g : UnGraph) (pr : Int × List Nat)
    (entry : (Nat × Nat) × Bool) (hmem : entry ∈ svgLines g (some pr)) :
    entry.2 = true ↔ (entry.1.2 ∈ pr.2 ∧ entry.1.1 ∈ pr.2) := by
  unfold svgLines at hmem
  rw [foldl_append_eq_flatMap, List.nil_append, List.mem_flatMap] at hmem
  obtain ⟨u, hu, hentry⟩ := hmem
  rw [List.mem_map] at hentry
  obtain ⟨v, hv, rfl⟩ := hentry
  simp [List.elem_iff]

theorem C9_witness :
    (((0, 2), true) ∈ svgLines (make_graph 2 2) (some (2, [0, 2, 3]))) ∧
    ((((0, 2), true) : (Nat × Nat) × Bool).2 = true ↔
      (2 ∈ [0, 2, 3] ∧ 0 ∈ [0, 2, 3])) :=
  ⟨by decide, C9_on_path_marking (make_graph 2 2) (2, [0, 2, 3]) ((0, 2), true)
    (by decide)⟩

/-- C8 (counterexample): on the 3×2 grid the node array of `graph_to_json`
is the insertion-order list `g.node_indices().map(|i| g[i])`, which differs
from the breadth-first visit order rooted at the first node already in
position 1. -/
theorem C8_nodes_not_bfs_order :
    (graph_to_json (make_graph 3 2) none).map JsonOut.nodes ≠
      some ((bfsOrder (make_graph 3 2) 0).map (coordAt (make_graph 3 2))) := by
  decide

/-- C8 (amended): for W,H ≥ 1 with W·H ≤ 16383 — so that the i16 prologue of
`make_graph` does not panic (cf. `i16_band_panics`) and the flattener is
reached — the node array of `graph_to_json` lists the coordinates in
node-index (insertion, row-major) order: entry `i` is `(i mod W, i div W)`. -/
theorem C8_nodes_insertion_order (width height : Int) (p : Option (Int × List Nat))
    (h1 : 1 ≤ width) (h2 : 1 ≤ height) (hA : width * height ≤ 16383) :
    ∃ out, graph_to_json (make_graph width height) p = some out ∧
      out.nodes.length = height.toNat * width.toNat ∧
      ∀ i, i < height.toNat * width.toNat →
        out.nodes.getD i ⟨0, 0⟩
          = ⟨Nat.cast (i % width.toNat), Nat.cast (i / width.toNat)⟩ := by
  have hpos : 0 < height.toNat * width.toNat := by
    have hw : 0 < width.toNat := by omega
    have hh : 0 < height.toNat := by omega
    exact Nat.mul_pos hh hw
  have hlen := make_graph_nodes_length width height
  refine ⟨⟨(make_graph width height).nodes, jsonEdges (make_graph width height),
    p.map (fun pr => pr.2.map (coordAt (make_graph width height)))⟩, ?_, ?_, ?_⟩
  · rw [graph_to_json, if_neg (by omega)]
  · exact hlen
  · intro i hi
    have : (make_graph width height).nodes.getD i ⟨0, 0⟩
        = coordAt (make_graph width height) i := rfl
    rw [this, coordAt_make_graph hi]

theorem C8_amended_witness :
    (1 : Int) ≤ 3 ∧ (1 : Int) ≤ 2 ∧ (3 : Int) * 2 ≤ 16383 ∧
    (∃ out, graph_to_json (make_graph 3 2) none = some out ∧
      out.nodes.length = (2 : Int).toNat * (3 : Int).toNat ∧
      ∀ i, i < (2 : Int).toNat * (3 : Int).toNat →
        out.nodes.getD i ⟨0, 0⟩
          = ⟨Nat.cast (i % (3 : Int).toNat), Nat.cast (i / (3 : Int).toNat)⟩) :=
  ⟨by norm_num, by norm_num, by norm_num,
    C8_nodes_insertion_order 3 2 none (by norm_num) (by norm_num) (by norm_num)⟩

theorem countP_flatMap {α β : Type} (p : β → Bool) (f : α → List β) (l : List α) :
    (l.flatMap f).countP p = (l.map (fun a => (f a).countP p)).sum := by
  induction l with
  | nil => simp
  | cons a l ih => simp [List.countP_append, ih]

theorem sum_indicator (k : Nat) (c : Prop) [Decidable c] : ∀ n : Nat,
    ((List.range n).map (fun j => if j = k ∧ c then 1 else 0)).sum
      = if k < n ∧ c then 1 else 0 := by
  intro n
  induction n with
  | zero => simp
  | succ n ih =>
    rw [List.range_succ, List.map_append, List.sum_append, ih]
    simp only [List.map_cons, List.map_nil, List.sum_cons, List.sum_nil]
    by_cases hc : c
    · simp only [hc, and_true]
      split_ifs <;> omega
    · simp [hc]

theorem sum_map_add {α : Type} (f g : α → Nat) (l : List α) :
    (l.map (fun j => f j + g j)).sum = (l.map f).sum + (l.map g).sum := by
  induction l with
  | nil => simp
  | cons a l ih => simp [ih]; omega

theorem cell_touch (W i : Nat) (hW : 0 < W) (j : Nat) :
    (cellEdges W j).countP (fun e => e.src == i || e.dst == i) =
      (fun j => (if j = i ∧ W ≤ i then 1 else 0) + (if j = i ∧ i % W ≠ 0 then 1 else 0)
        + (if j = i + W ∧ True then 1 else 0)
        + (if j = i + 1 ∧ (i + 1) % W ≠ 0 then 1 else 0)) j := by
  have hA : (List.countP (fun e => e.src == i || e.dst == i)
      (if W ≤ j then [(⟨j, j - W, 1⟩ : GEdge)] else [])) =
      if W ≤ j ∧ (j = i ∨ j - W = i) then 1 else 0 := by
    by_cases hn : W ≤ j
    · by_cases hni : j = i ∨ j - W = i <;>
        simp [hn, hni, List.countP_cons, Bool.or_eq_true, beq_iff_eq]
    · simp [hn]
  have hB : (List.countP (fun e => e.src == i || e.dst == i)
      (if j % W = 0 then [] else [(⟨j, j - 1, 1⟩ : GEdge)])) =
      if j % W ≠ 0 ∧ (j = i ∨ j - 1 = i) then 1 else 0 := by
    by_cases hm : j % W = 0
    · simp [hm]
    · by_cases hni : j = i ∨ j - 1 = i <;>
        simp [hm, hni, List.countP_cons, Bool.or_eq_true, beq_iff_eq]
  rw [cellEdges, List.countP_append, hA, hB]
  show _ = (if j = i ∧ W ≤ i then 1 else 0) + (if j = i ∧ i % W ≠ 0 then 1 else 0)
    + (if j = i + W ∧ True then 1 else 0) + (if j = i + 1 ∧ (i + 1) % W ≠ 0 then 1 else 0)
  have h1 : (if W ≤ j ∧ (j = i ∨ j - W = i) then 1 else 0)
      = (if j = i ∧ W ≤ i then 1 else 0) + (if j = i + W ∧ True then (1:Nat) else 0) := by
    by_cases e2 : j = i + W
    · rw [e2]
      rw [if_pos (show W ≤ i + W ∧ (i + W = i ∨ i + W - W = i) from
            ⟨by omega, Or.inr (by omega)⟩),
          if_neg (show ¬(i + W = i ∧ W ≤ i) from fun hc => absurd hc.1 (by omega)),
          if_pos (show i + W = i + W ∧ True from ⟨rfl, trivial⟩)]
    · by_cases e1 : j = i
      · rw [e1]
        by_cases hWi : W ≤ i
        · rw [if_pos (show W ≤ i ∧ (i = i ∨ i - W = i) from ⟨hWi, Or.inl rfl⟩),
            if_pos (show i = i ∧ W ≤ i from ⟨rfl, hWi⟩),
            if_neg (show ¬(i = i + W ∧ True) from fun hc => absurd hc.1 (by omega))]
        · rw [if_neg (show ¬(W ≤ i ∧ (i = i ∨ i - W = i)) from fun hc => hWi hc.1),
            if_neg (show ¬(i = i ∧ W ≤ i) from fun hc => hWi hc.2),
            if_neg (show ¬(i = i + W ∧ True) from fun hc => absurd hc.1 (by omega))]
      · rw [if_neg (show ¬(W ≤ j ∧ (j = i ∨ j - W = i)) from ?_),
          if_neg (show ¬(j = i ∧ W ≤ i) from fun hc => e1 hc.1),
          if_neg (show ¬(j = i + W ∧ True) from fun hc => e2 hc.1)]
        rintro ⟨hle, h | h⟩
        · exact e1 h
        · exact e2 (by omega)
  have h2 : (if j % W ≠ 0 ∧ (j = i ∨ j - 1 = i) then 1 else 0)
      = (if j = i ∧ i % W ≠ 0 then 1 else 0)
        + (if j = i + 1 ∧ (i + 1) % W ≠ 0 then (1:Nat) else 0) := by
    by_cases e1 : j = i
    · rw [e1]
      by_cases hm : i % W = 0
      · rw [if_neg (show ¬(i % W ≠ 0 ∧ (i = i ∨ i - 1 = i)) from fun hc => hc.1 hm),
          if_neg (show ¬(i = i ∧ i % W ≠ 0) from fun hc => hc.2 hm),
          if_neg (show ¬(i = i + 1 ∧ (i + 1) % W ≠ 0) from fun hc => absurd hc.1 (by omega))]
      · rw [if_pos (show i % W ≠ 0 ∧ (i = i ∨ i - 1 = i) from ⟨hm, Or.inl rfl⟩),
          if_pos (show i = i ∧ i % W ≠ 0 from ⟨rfl, hm⟩),
          if_neg (show ¬(i = i + 1 ∧ (i + 1) % W ≠ 0) from fun hc => absurd hc.1 (by omega))]
    · by_cases e2 : j = i + 1
      · rw [e2]
        by_cases hm : (i + 1) % W = 0
        · rw [if_neg (show ¬((i + 1) % W ≠ 0 ∧ (i + 1 = i ∨ i + 1 - 1 = i)) from
              fun hc => hc.1 hm),
            if_neg (show ¬(i + 1 = i ∧ i % W ≠ 0) from fun hc => absurd hc.1 (by omega)),
            if_neg (show ¬(i + 1 = i + 1 ∧ (i + 1) % W ≠ 0) from fun hc => hc.2 hm)]
        · rw [if_pos (show (i + 1) % W ≠ 0 ∧ (i + 1 = i ∨ i + 1 - 1 = i) from
              ⟨hm, Or.inr (by omega)⟩),
            if_neg (show ¬(i + 1 = i ∧ i % W ≠ 0) from fun hc => absurd hc.1 (by omega)),
            if_pos (show i + 1 = i + 1 ∧ (i + 1) % W ≠ 0 from ⟨rfl, hm⟩)]
      · rw [if_neg (show ¬(j % W ≠ 0 ∧ (j = i ∨ j - 1 = i)) from ?_),
          if_neg (show ¬(j = i ∧ i % W ≠ 0) from fun hc => e1 hc.1),
          if_neg (show ¬(j = i + 1 ∧ (i + 1) % W ≠ 0) from fun hc => e2 hc.1)]
        rintro ⟨hm, h | h⟩
        · exact e1 h
        · have hj0 : j ≠ 0 := by
            intro h0
            rw [h0] at hm
            simp at hm
          exact e2 (by omega)
  rw [h1, h2]
  omega

theorem countP_touch (W i : Nat) (hW : 0 < W) (n : Nat) :
    (gridEdges W n).countP (fun e => e.src == i || e.dst == i) =
      ((if i < n ∧ W ≤ i then 1 else 0) +
       (if i < n ∧ i % W ≠ 0 then 1 else 0) +
       (if i + W < n then 1 else 0) +
       (if i + 1 < n ∧ (i + 1) % W ≠ 0 then 1 else 0)) := by
  rw [gridEdges, countP_flatMap]
  rw [List.map_congr_left (fun j _ => cell_touch W i hW j)]
  rw [sum_map_add, sum_map_add, sum_map_add,
    sum_indicator, sum_indicator, sum_indicator, sum_indicator]
  have : (if i + W < n ∧ True then 1 else 0) = if i + W < n then (1:Nat) else 0 := by
    simp
  omega

theorem row_lt {W H x y : Nat} (hx : x < W) (hy : y < H) : y * W + x < H * W := by
  have h1 : y * W + x < (y + 1) * W := by
    have : (y + 1) * W = y * W + W := by ring
    omega
  have h2 : (y + 1) * W ≤ H * W := Nat.mul_le_mul_right W (by omega)
  omega

theorem degree_coords (width height : Int) (x y : Nat)
    (hx : x < width.toNat) (hy : y < height.toNat) :
    degree (make_graph width height) (y * width.toNat + x) =
      ((if 1 ≤ y then 1 else 0) + (if 1 ≤ x then 1 else 0) +
       (if y + 1 < height.toNat then 1 else 0) + (if x + 1 < width.toNat then 1 else 0)) := by
  set W := width.toNat with hWdef
  set H := height.toNat with hHdef
  have hW : 0 < W := by omega
  set i := y * W + x with hidef
  set n := H * W with hndef
  rw [degree, make_graph_edges, countP_touch W i hW n]
  have hin : i < n := row_lt hx hy
  have c1 : (i < n ∧ W ≤ i) ↔ 1 ≤ y := by
    constructor
    · rintro ⟨_, hWi⟩
      by_contra hy0
      have : y = 0 := by omega
      rw [hidef, this] at hWi
      simp at hWi
      omega
    · intro h1
      refine ⟨hin, ?_⟩
      have : 1 * W ≤ y * W := Nat.mul_le_mul_right W h1
      omega
  have c2 : (i < n ∧ i % W ≠ 0) ↔ 1 ≤ x := by
    rw [hidef, mod_eq W y x hx]
    constructor
    · rintro ⟨_, hx0⟩
      omega
    · intro h
      exact ⟨hin, by omega⟩
  have c3 : (i + W < n) ↔ y + 1 < H := by
    have hrw : i + W = (y + 1) * W + x := by rw [hidef]; ring
    rw [hrw]
    constructor
    · intro h
      by_contra hge
      have : H ≤ y + 1 := by omega
      have : H * W ≤ (y + 1) * W := Nat.mul_le_mul_right W this
      omega
    · intro h
      exact row_lt hx h
  have c4 : (i + 1 < n ∧ (i + 1) % W ≠ 0) ↔ x + 1 < W := by
    constructor
    · rintro ⟨hlt, hm⟩
      by_contra hge
      have hxw : x + 1 = W := by omega
      have hmul : (y + 1) * W = y * W + W := by ring
      have : i + 1 = (y + 1) * W := by rw [hidef]; omega
      rw [this, Nat.mul_mod_left] at hm
      exact hm rfl
    · intro h
      have hrw : i + 1 = y * W + (x + 1) := by rw [hidef]; omega
      constructor
      · rw [hrw]
        exact row_lt h hy
      · rw [hrw, mod_eq W y (x + 1) h]
        omega
  simp only [c1, c2, c3, c4]

theorem vert_coords {W i : Nat} (hW : 0 < W) (hWi : W ≤ i) :
    i % W = (i - W) % W ∧ i / W = (i - W) / W + 1 := by
  have h : i - W + W = i := by omega
  constructor
  · conv_lhs => rw [← h]
    rw [Nat.add_mod_right]
  · conv_lhs => rw [← h]
    rw [Nat.add_div_right _ hW]

theorem horiz_coords {W i : Nat} (hW : 0 < W) (hm : i % W ≠ 0) :
    i % W = (i - 1) % W + 1 ∧ i / W = (i - 1) / W := by
  have h1 : 0 < i := by
    rcases Nat.eq_zero_or_pos i with h | h
    · rw [h] at hm
      simp at hm
    · exact h
  have hd : W * (i / W) + i % W = i := Nat.div_add_mod i W
  have hcomm : W * (i / W) = (i / W) * W := Nat.mul_comm _ _
  have hrpos : 1 ≤ i % W := Nat.one_le_iff_ne_zero.mpr hm
  have hrlt : i % W < W := Nat.mod_lt i hW
  obtain ⟨r, hr⟩ : ∃ r, i % W = r + 1 := ⟨i % W - 1, by omega⟩
  have heq : i - 1 = (i / W) * W + r := by omega
  have hm2 : (i - 1) % W = r := by rw [heq, mod_eq W (i / W) _ (by omega)]
  have hd2 : (i - 1) / W = i / W := by rw [heq, div_eq W (i / W) _ (by omega)]
  omega

theorem unitStep_mk {p q r t : Int} :
    unitStep ⟨p, q⟩ ⟨r, t⟩ ↔ ((p = r ∧ (q - t).natAbs = 1) ∨ (q = t ∧ (p - r).natAbs = 1)) :=
  Iff.rfl

theorem adj_iff_unitStep (width height : Int) {a b : Nat}
    (ha : a < height.toNat * width.toNat) (hb : b < height.toNat * width.toNat) :
    Adj (make_graph width height) a b ↔
      unitStep (coordAt (make_graph width height) a)
        (coordAt (make_graph width height) b) := by
  have hW : 0 < width.toNat := by
    rcases Nat.eq_zero_or_pos width.toNat with h | h
    · rw [h] at ha
      simp at ha
    · exact h
  rw [coordAt_make_graph ha, coordAt_make_graph hb, unitStep_mk]
  unfold Adj
  rw [make_graph_edges]
  constructor
  · rintro ⟨e, he, hor⟩
    rw [mem_gridEdges] at he
    obtain ⟨i, hi, hcase⟩ := he
    rcases hcase with ⟨hWi, rfl⟩ | ⟨hm, rfl⟩
    · rcases hor with ⟨h1, h2⟩ | ⟨h1, h2⟩
      · obtain rfl : a = i := h1.symm
        obtain rfl : b = a - width.toNat := h2.symm
        have hv := vert_coords hW hWi
        exact Or.inl ⟨by rw [hv.1], by omega⟩
      · obtain rfl : b = i := h1.symm
        obtain rfl : a = b - width.toNat := h2.symm
        have hv := vert_coords hW hWi
        exact Or.inl ⟨by rw [hv.1], by omega⟩
    · rcases hor with ⟨h1, h2⟩ | ⟨h1, h2⟩
      · obtain rfl : a = i := h1.symm
        obtain rfl : b = a - 1 := h2.symm
        have hh := horiz_coords hW hm
        exact Or.inr ⟨by rw [hh.2], by omega⟩
      · obtain rfl : b = i := h1.symm
        obtain rfl : a = b - 1 := h2.symm
        have hh := horiz_coords hW hm
        exact Or.inr ⟨by rw [hh.2], by omega⟩
  · have hda := Nat.div_add_mod a width.toNat
    have hdb := Nat.div_add_mod b width.toNat
    have hma := Nat.mod_lt a hW
    have hmb := Nat.mod_lt b hW
    have hca : width.toNat * (a / width.toNat) = (a / width.toNat) * width.toNat :=
      Nat.mul_comm _ _
    have hcb : width.toNat * (b / width.toNat) = (b / width.toNat) * width.toNat :=
      Nat.mul_comm _ _
    rintro (⟨hxeq, hyd⟩ | ⟨hyeq, hxd⟩)
    · have hx : a % width.toNat = b % width.toNat := by omega
      have hy : a / width.toNat = b / width.toNat + 1 ∨
          b / width.toNat = a / width.toNat + 1 := by omega
      rcases hy with hy | hy
      · have hmm : (a / width.toNat) * width.toNat
            = (b / width.toNat) * width.toNat + width.toNat := by rw [hy]; ring
        have hab : a = b + width.toNat := by omega
        refine ⟨⟨a, a - width.toNat, 1⟩, ?_, Or.inl ⟨rfl, show a - width.toNat = b by omega⟩⟩
        rw [mem_gridEdges]
        exact ⟨a, ha, Or.inl ⟨by omega, rfl⟩⟩
      · have hmm : (b / width.toNat) * width.toNat
            = (a / width.toNat) * width.toNat + width.toNat := by rw [hy]; ring
        have hab : b = a + width.toNat := by omega
        refine ⟨⟨b, b - width.toNat, 1⟩, ?_, Or.inr ⟨rfl, show b - width.toNat = a by omega⟩⟩
        rw [mem_gridEdges]
        exact ⟨b, hb, Or.inl ⟨by omega, rfl⟩⟩
    · have hy : a / width.toNat = b / width.toNat := by omega
      have hmm : (a / width.toNat) * width.toNat = (b / width.toNat) * width.toNat := by
        rw [hy]
      have hx : a % width.toNat = b % width.toNat + 1 ∨
          b % width.toNat = a % width.toNat + 1 := by omega
      rcases hx with hx | hx
      · have hab : a = b + 1 := by omega
        refine ⟨⟨a, a - 1, 1⟩, ?_, Or.inl ⟨rfl, show a - 1 = b by omega⟩⟩
        rw [mem_gridEdges]
        exact ⟨a, ha, Or.inr ⟨by omega, rfl⟩⟩
      · have hab : b = a + 1 := by omega
        refine ⟨⟨b, b - 1, 1⟩, ?_, Or.inr ⟨rfl, show b - 1 = a by omega⟩⟩
        rw [mem_gridEdges]
        exact ⟨b, hb, Or.inr ⟨by omega, rfl⟩⟩

theorem countP_congr_mem {α : Type} {p q : α → Bool} : ∀ {l : List α},
    (∀ a ∈ l, p a = q a) → l.countP p = l.countP q := by
  intro l
  induction l with
  | nil => intro _; rfl
  | cons a l ih =>
    intro h
    rw [List.countP_cons, List.countP_cons, h a (by simp), ih (fun b hb => h b (by simp [hb]))]

theorem count_range (x : Nat) : ∀ n : Nat,
    (List.range n).count x = if x < n then 1 else 0 := by
  intro n
  induction n with
  | zero => simp
  | succ n ih =>
    rw [List.range_succ, List.count_append, ih]
    by_cases h : x = n
    · rw [h]
      have h1 : (List.count n [n]) = 1 := by simp
      rw [h1]
      split_ifs <;> omega
    · have h0 : (List.count x [n]) = 0 := by
        rw [List.count_singleton]
        simp [h]
        omega
      rw [h0]
      split_ifs <;> omega

theorem count_gridNodes_in (width height : Int) (c : Coordinate2D)
    (hc : inRect width height c) :
    (gridNodes width.toNat (height.toNat * width.toNat)).count c = 1 := by
  obtain ⟨hx0, hxw, hy0, hyh⟩ := hc
  have hW : 0 < width.toNat := by omega
  have hcx : c.x.toNat < width.toNat := by omega
  have hcy : c.y.toNat < height.toNat := by omega
  set i0 := c.y.toNat * width.toNat + c.x.toNat with hi0
  have hi0n : i0 < height.toNat * width.toNat := row_lt hcx hcy
  unfold gridNodes
  rw [List.count, List.countP_map]
  have hpt : ∀ i ∈ List.range (height.toNat * width.toNat),
      ((fun b => b == c) ∘ fun i =>
        (⟨Nat.cast (i % width.toNat), Nat.cast (i / width.toNat)⟩ : Coordinate2D)) i
      = (i == i0) := by
    intro i hi
    rw [List.mem_range] at hi
    simp only [Function.comp_apply, beq_iff_eq]
    have hmi : Coordinate2D.mk (Nat.cast (i % width.toNat)) (Nat.cast (i / width.toNat)) = c
        ↔ i = i0 := by
      constructor
      · intro h
        have hx : (Nat.cast (i % width.toNat) : Int) = c.x := congrArg Coordinate2D.x h
        have hy : (Nat.cast (i / width.toNat) : Int) = c.y := congrArg Coordinate2D.y h
        have hdiv : i / width.toNat = c.y.toNat := by omega
        have hmod : i % width.toNat = c.x.toNat := by omega
        have hd : width.toNat * (i / width.toNat) + i % width.toNat = i :=
          Nat.div_add_mod i width.toNat
        have hcm : width.toNat * (i / width.toNat)
            = (i / width.toNat) * width.toNat := Nat.mul_comm _ _
        rw [hi0, ← hdiv, ← hmod]
        omega
      · intro h
        rw [h, hi0, mod_eq _ _ _ hcx, div_eq _ _ _ hcx]
        have heta : c = ⟨c.x, c.y⟩ := rfl
        rw [heta]
        simp only [Coordinate2D.mk.injEq]
        constructor <;> omega
    rw [Bool.eq_iff_iff, beq_iff_eq, beq_iff_eq]
    exact hmi
  rw [countP_congr_mem hpt]
  have : (List.range (height.toNat * width.toNat)).countP (fun i => i == i0)
      = (List.range (height.toNat * width.toNat)).count i0 := rfl
  rw [this, count_range, if_pos hi0n]

theorem count_gridNodes_out (width height : Int) (c : Coordinate2D)
    (hc : ¬ inRect width height c) :
    (gridNodes width.toNat (height.toNat * width.toNat)).count c = 0 := by
  unfold gridNodes
  rw [List.count, List.countP_map, List.countP_eq_zero]
  intro i hi
  rw [List.mem_range] at hi
  simp only [Function.comp_apply, beq_iff_eq]
  intro h
  apply hc
  have hx : (Nat.cast (i % width.toNat) : Int) = c.x := congrArg Coordinate2D.x h
  have hy : (Nat.cast (i / width.toNat) : Int) = c.y := congrArg Coordinate2D.y h
  have hW : 0 < width.toNat := by
    rcases Nat.eq_zero_or_pos width.toNat with h0 | h0
    · rw [h0] at hi
      simp at hi
    · exact h0
  have hmw : i % width.toNat < width.toNat := Nat.mod_lt i hW
  have hdh : i / width.toNat < height.toNat := by
    by_contra hge
    have : height.toNat ≤ i / width.toNat := by omega
    have h2 : height.toNat * width.toNat ≤ (i / width.toNat) * width.toNat :=
      Nat.mul_le_mul_right _ this
    have hd : width.toNat * (i / width.toNat) + i % width.toNat = i :=
      Nat.div_add_mod i width.toNat
    have hcm : width.toNat * (i / width.toNat)
        = (i / width.toNat) * width.toNat := Nat.mul_comm _ _
    omega
  obtain ⟨q, hq⟩ : ∃ q, i / width.toNat = q := ⟨_, rfl⟩
  rw [hq] at hy hdh
  refine ⟨by omega, by omega, by omega, by omega⟩

theorem four_indicator_classify (x y W H : Nat) (hW : 2 ≤ W) (hH : 2 ≤ H)
    (hx : x < W) (hy : y < H) :
    ((if 1 ≤ y then 1 else 0) + (if 1 ≤ x then 1 else 0) +
     (if y + 1 < H then 1 else 0) + (if x + 1 < W then 1 else 0) : Nat) =
      (if 0 < x ∧ x + 1 < W ∧ 0 < y ∧ y + 1 < H then 4
       else if (x = 0 ∨ x + 1 = W) ∧ (y = 0 ∨ y + 1 = H) then 2
       else 3) := by
  split_ifs <;> omega

/-- Whenever the grid area lies in the i16 band [16384, 32767] — e.g. the
128×128 grid — `make_graph`'s prologue panics in every build mode: a checked
build overflows the i16 product `node_count * 2`, and a release build wraps
it to a negative i16 whose `as usize` cast makes `UnGraph::with_capacity`
request a capacity-overflowing allocation. -/
theorem i16_band_panics (width height : Int)
    (hlo : 16384 ≤ height * width) (hhi : height * width ≤ 32767) :
    make_graph_panics width height := by
  constructor
  · refine Or.inr (Or.inl ?_)
    unfold i16Overflow
    omega
  · refine ⟨i16ToUsize (i16Wrap (i16Wrap (height * width) * 2)), by simp, ?_⟩
    have hwrap : i16Wrap (height * width) = height * width := by
      unfold i16Wrap
      omega
    rw [hwrap]
    unfold i16Wrap i16ToUsize allocOverflow
    have h64 : (2 : Int) ^ 64 = 18446744073709551616 := by norm_num
    have h61 : (2 : Nat) ^ 61 = 2305843009213693952 := by norm_num
    rw [h64, h61]
    omega

/-- C5 (counterexample): the 1×1 grid is built from W = H = 1 ≥ 1; its only
node carries the corner coordinate (0,0) (x ∈ {0, W−1}, y ∈ {0, H−1}), yet
its degree is 0, not 2 as the claim requires of corner nodes. -/
theorem C5_corner_degree_fails :
    (make_graph 1 1).nodes = [⟨0, 0⟩] ∧ degree (make_graph 1 1) 0 = 0 := by
  decide

/-- C5 (amended): for W,H ≥ 1 with W·H ≤ 16383 — the regime in which the
source's i16 prologue (`node_count` and `node_count * 2`) stays in range and
`make_graph` actually runs instead of panicking (see `i16_band_panics` for
the 128×128-style crash band) — the built graph has exactly W·H nodes,
exactly one node per coordinate of [0,W)×[0,H) and none outside it, and its
edges are exactly the 4-neighbour adjacency; the degree classification
(interior 4, corner 2, other boundary 3) holds for W,H ≥ 2 (on a 1-wide or
1-high grid corners have degree 0 or 1 and edge nodes degree 2). -/
theorem C5_grid_shape (width height : Int) (h1 : 1 ≤ width) (h2 : 1 ≤ height)
    (hA : width * height ≤ 16383) :
    (make_graph width height).nodes.length = height.toNat * width.toNat ∧
    (∀ c : Coordinate2D, inRect width height c →
      (make_graph width height).nodes.count c = 1) ∧
    (∀ c : Coordinate2D, ¬ inRect width height c →
      (make_graph width height).nodes.count c = 0) ∧
    (∀ a b : Nat, a < height.toNat * width.toNat → b < height.toNat * width.toNat →
      (Adj (make_graph width height) a b ↔
        unitStep (coordAt (make_graph width height) a)
          (coordAt (make_graph width height) b))) ∧
    (2 ≤ width → 2 ≤ height → ∀ x y : Nat, x < width.toNat → y < height.toNat →
      degree (make_graph width height) (y * width.toNat + x) =
        (if 0 < x ∧ x + 1 < width.toNat ∧ 0 < y ∧ y + 1 < height.toNat then 4
         else if (x = 0 ∨ x + 1 = width.toNat) ∧ (y = 0 ∨ y + 1 = height.toNat) then 2
         else 3)) := by
  refine ⟨make_graph_nodes_length width height, ?_, ?_, ?_, ?_⟩
  · intro c hc
    rw [make_graph_nodes]
    exact count_gridNodes_in width height c hc
  · intro c hc
    rw [make_graph_nodes]
    exact count_gridNodes_out width height c hc
  · intro a b ha hb
    exact adj_iff_unitStep width height ha hb
  · intro hw2 hh2 x y hx hy
    rw [degree_coords width height x y hx hy]
    exact four_indicator_classify x y width.toNat height.toNat (by omega) (by omega) hx hy

theorem C5_witness :
    (1 : Int) ≤ 3 ∧ (1 : Int) ≤ 2 ∧ (3 : Int) * 2 ≤ 16383 ∧
    ((make_graph 3 2).nodes.length = (2 : Int).toNat * (3 : Int).toNat ∧
     (∀ c : Coordinate2D, inRect 3 2 c → (make_graph 3 2).nodes.count c = 1) ∧
     (∀ c : Coordinate2D, ¬ inRect 3 2 c → (make_graph 3 2).nodes.count c = 0) ∧
     (∀ a b : Nat, a < (2 : Int).toNat * (3 : Int).toNat →
        b < (2 : Int).toNat * (3 : Int).toNat →
       (Adj (make_graph 3 2) a b ↔
         unitStep (coordAt (make_graph 3 2) a) (coordAt (make_graph 3 2) b))) ∧
     (2 ≤ (3 : Int) → 2 ≤ (2 : Int) → ∀ x y : Nat, x < (3 : Int).toNat →
        y < (2 : Int).toNat →
       degree (make_graph 3 2) (y * (3 : Int).toNat + x) =
         (if 0 < x ∧ x + 1 < (3 : Int).toNat ∧ 0 < y ∧ y + 1 < (2 : Int).toNat then 4
          else if (x = 0 ∨ x + 1 = (3 : Int).toNat) ∧ (y = 0 ∨ y + 1 = (2 : Int).toNat)
            then 2 else 3))) :=
  ⟨by norm_num, by norm_num, by norm_num,
    C5_grid_shape 3 2 (by norm_num) (by norm_num) (by norm_num)⟩

theorem IsWalk.snoc {g : UnGraph} {a b c n : Nat} (w : IsWalk g a b n) (h : Adj g b c) :
    IsWalk g a c (n + 1) := by
  induction w with
  | nil => exact IsWalk.cons h (IsWalk.nil c)
  | cons hadj tail ih => exact IsWalk.cons hadj (ih h)

theorem spath_exists {g : UnGraph} {s t : Nat} : ∀ {n : Nat}, IsWalk g s t n →
    ∃ m, SPath g s t m := by
  intro n
  induction n using Nat.strong_induction_on with
  | _ n ih =>
    intro w
    by_cases h : ∃ m, m < n ∧ IsWalk g s t m
    · obtain ⟨m, hm, wm⟩ := h
      exact ih m hm wm
    · push_neg at h
      exact ⟨n, w, fun m wm => Nat.le_of_not_lt (fun hlt => h m hlt wm)⟩

theorem SPath.le {g : UnGraph} {s t m n : Nat} (hp : SPath g s t m) (w : IsWalk g s t n) :
    m ≤ n := hp.2 n w

theorem SPath.unique {g : UnGraph} {s t m m' : Nat} (h : SPath g s t m) (h' : SPath g s t m') :
    m = m' := Nat.le_antisymm (h.2 m' h'.1) (h'.2 m h.1)

theorem SPath.adj_le {g : UnGraph} {s a b da : Nat} (hp : SPath g s a da) (h : Adj g a b) :
    ∃ db, SPath g s b db ∧ db ≤ da + 1 := by
  have w := hp.1.snoc h
  obtain ⟨db, hdb⟩ := spath_exists w
  exact ⟨db, hdb, hdb.le w⟩

theorem SPath.refl {g : UnGraph} (s : Nat) : SPath g s s 0 :=
  ⟨IsWalk.nil s, fun n _ => Nat.zero_le n⟩

theorem hf_telescope {g : UnGraph} {hf : Nat → Int}
    (hcons : ∀ u v, Adj g u v → hf u ≤ 1 + hf v) {a b n : Nat}
    (w : IsWalk g a b n) : hf a ≤ (n : Int) + hf b := by
  induction w with
  | nil => simp
  | cons hadj tail ih =>
    have h1 := hcons _ _ hadj
    push_cast
    push_cast at ih
    omega

theorem popMin_none {q : List (Int × Nat)} : popMin q = none ↔ q = [] := by
  cases q with
  | nil => simp [popMin]
  | cons e rest =>
    simp only [popMin]
    constructor
    · intro h
      cases hrest : popMin rest with
      | none => rw [hrest] at h; simp at h
      | some p => rw [hrest] at h; rcases p with ⟨m, rest'⟩; dsimp at h; split_ifs at h
    · intro h
      cases h

theorem popMin_spec {q : List (Int × Nat)} {m : Int × Nat} {q' : List (Int × Nat)} :
    popMin q = some (m, q') →
    m ∈ q ∧ (∀ e ∈ q, m.1 ≤ e.1) ∧ (∀ e ∈ q, e = m ∨ e ∈ q') ∧
      q'.length + 1 = q.length ∧ (∀ e ∈ q', e ∈ q) := by
  induction q generalizing m q' with
  | nil => intro h; simp [popMin] at h
  | cons e rest ih =>
    intro h
    simp only [popMin] at h
    cases hrest : popMin rest with
    | none =>
      rw [hrest] at h
      have hre : rest = [] := popMin_none.mp hrest
      cases h
      subst hre
      refine ⟨by simp, ?_, ?_, by simp, by simp⟩
      · intro e' he'
        simp at he'
        rw [he']
      · intro e' he'
        simp at he'
        exact Or.inl he'
    | some p =>
      rcases p with ⟨m2, rest2⟩
      rw [hrest] at h
      obtain ⟨hmem2, hmin2, hrem2, hlen2, hsub2⟩ := ih hrest
      dsimp at h
      by_cases hle : e.1 ≤ m2.1
      · rw [if_pos hle] at h
        cases h
        refine ⟨by simp, ?_, ?_, by simp, fun e2 he2 => List.mem_cons_of_mem e he2⟩
        · intro e' he'
          rcases List.mem_cons.mp he' with rfl | he'
          · exact le_rfl
          · exact le_trans hle (hmin2 e' he')
        · intro e' he'
          rcases List.mem_cons.mp he' with rfl | he'
          · exact Or.inl rfl
          · exact Or.inr he'
      · rw [if_neg hle] at h
        cases h
        refine ⟨List.mem_cons_of_mem e hmem2, ?_, ?_, by simp [← hlen2], ?_⟩
        · intro e2 he2
          rcases List.mem_cons.mp he2 with rfl | he2
          · omega
          · exact hmin2 e2 he2
        · intro e2 he2
          rcases List.mem_cons.mp he2 with rfl | he2
          · exact Or.inr (List.mem_cons_self _ _)
          · rcases hrem2 e2 he2 with h | h
            · exact Or.inl h
            · exact Or.inr (List.mem_cons_of_mem e h)
        · intro e2 he2
          rcases List.mem_cons.mp he2 with rfl | he2
          · exact List.mem_cons_self _ _
          · exact List.mem_cons_of_mem e (hsub2 e2 he2)

theorem reconstruct_path {g : UnGraph} {s : Nat} {goalP : Nat → Bool} {hf : Nat → Int}
    {st : AState} (inv : AInv g s goalP hf st) :
    ∀ k u x, st.scores u = some x → x.toNat = k → ∀ fuel, k ≤ fuel →
      (reconstruct st.pred fuel u).head? = some s ∧
      (reconstruct st.pred fuel u).getLast? = some u ∧
      List.Chain' (Adj g) (reconstruct st.pred fuel u) ∧
      IsWalk g s u ((reconstruct st.pred fuel u).length - 1) ∧
      (reconstruct st.pred fuel u).length ≤ k + 1 ∧
      (reconstruct st.pred fuel u).Nodup ∧
      (∀ v ∈ reconstruct st.pred fuel u, ∃ xv, st.scores v = some xv ∧ xv ≤ x) := by
  intro k
  induction k using Nat.strong_induction_on with
  | _ k ih =>
    intro u x hx hxk fuel hfuel
    cases hp : st.pred u with
    | none =>
      have hus : u = s := inv.predNone u x hx hp
      have hrec : reconstruct st.pred fuel u = [u] := by
        cases fuel with
        | zero => rfl
        | succ f => simp [reconstruct, hp]
      rw [hrec]
      refine ⟨by simp [hus], rfl, by simp, ?_, by simp, by simp, ?_⟩
      · have : ([u] : List Nat).length - 1 = 0 := rfl
        rw [this, hus]
        exact IsWalk.nil s
      · intro v hv
        rw [List.mem_singleton] at hv
        subst hv
        exact ⟨x, hx, le_rfl⟩
    | some p =>
      obtain ⟨hadj, xn, xp, hxn, hxp, hstep⟩ := inv.predAdj u p hp
      have hxx : xn = x := by
        rw [hxn] at hx
        exact Option.some.inj hx
      subst hxx
      have hxpge := (inv.sound p xp hxp).1
      have hxge := (inv.sound u xn hxn).1
      have hkpos : 1 ≤ k := by omega
      cases fuel with
      | zero => omega
      | succ f =>
        have hrec : reconstruct st.pred (f + 1) u = reconstruct st.pred f p ++ [u] := by
          simp [reconstruct, hp]
        have hkp : xp.toNat < k := by omega
        have hfp : xp.toNat ≤ f := by omega
        obtain ⟨hh, hl, hc, hw, hlen, hnd, hsc⟩ := ih xp.toNat hkp p xp hxp rfl f hfp
        have hlpne : reconstruct st.pred f p ≠ [] := by
          intro h0
          rw [h0] at hh
          simp at hh
        rw [hrec]
        have hlen1 : 1 ≤ (reconstruct st.pred f p).length :=
          List.length_pos.mpr hlpne
        refine ⟨?_, ?_, ?_, ?_, ?_, ?_, ?_⟩
        · cases hcase : reconstruct st.pred f p with
          | nil => exact absurd hcase hlpne
          | cons a t =>
            rw [hcase] at hh
            simpa using hh
        · exact List.getLast?_concat _
        · refine List.Chain'.append hc (by simp) ?_
          intro a ha b hb
          rw [hl] at ha
          simp only [List.head?_cons, Option.mem_def, Option.some.injEq] at ha hb
          subst ha
          subst hb
          exact hadj
        · have heq : (reconstruct st.pred f p ++ [u]).length - 1
              = ((reconstruct st.pred f p).length - 1) + 1 := by
            rw [List.length_append]
            simp
            omega
          rw [heq]
          exact hw.snoc hadj
        · rw [List.length_append]
          simp
          omega
        · rw [List.nodup_append]
          refine ⟨hnd, by simp, ?_⟩
          intro v hv
          obtain ⟨xv, hxv, hxvle⟩ := hsc v hv
          rw [List.mem_singleton]
          intro hvu
          rw [hvu, hxn] at hxv
          have := Option.some.inj hxv
          omega
        · intro v hv
          rcases List.mem_append.mp hv with hv | hv
          · obtain ⟨xv, hxv, hxvle⟩ := hsc v hv
            exact ⟨xv, hxv, by omega⟩
          · rw [List.mem_singleton] at hv
            subst hv
            exact ⟨xn, hxn, le_rfl⟩

theorem frontier_entry {g : UnGraph} {s : Nat} {goalP : Nat → Bool} {hf : Nat → Int}
    {st : AState} (inv : AInv g s goalP hf st)
    (hcons : ∀ u v, Adj g u v → hf u ≤ 1 + hf v) :
    ∀ {a t r : Nat}, IsWalk g a t r → (∃ ea, st.ests a = some ea) → st.ests t = none →
      ∀ da, SPath g s a da →
      ∃ fe ve, (fe, ve) ∈ st.queue ∧ fe ≤ (da : Int) + r + hf t := by
  intro a t r w
  induction w with
  | nil =>
    intro ⟨ea, hea⟩ hnone da _
    rw [hea] at hnone
    cases hnone
  | @cons a b t n hadj tail ih =>
    intro ⟨ea, hea⟩ hnone da hda
    rcases inv.estsNbrs a ea hea b hadj with ⟨xb, du, hxb, hdu, hle⟩
    have hdua : du = da := hdu.unique hda
    subst hdua
    cases heb : st.ests b with
    | none =>
      rcases inv.inQueue b xb hxb with h | h
      · exact absurd heb h
      · refine ⟨xb + hf b, b, h, ?_⟩
        have htel := hf_telescope hcons tail
        push_cast
        omega
    | some eb =>
      obtain ⟨xb2, hxb2, hsp2⟩ := inv.estsDist b eb heb
      have hxbeq : xb2 = xb := by
        rw [hxb] at hxb2
        exact (Option.some.inj hxb2).symm
      subst hxbeq
      have hb0 := (inv.sound b xb2 hxb2).1
      have hcast : (xb2.toNat : Int) = xb2 := Int.toNat_of_nonneg hb0
      obtain ⟨fe, ve, hmem, hbound⟩ := ih ⟨eb, heb⟩ hnone xb2.toNat hsp2
      refine ⟨fe, ve, hmem, ?_⟩
      push_cast
      push_cast at hbound
      omega

theorem cover_entry {g : UnGraph} {s : Nat} {goalP : Nat → Bool} {hf : Nat → Int}
    {st : AState} (inv : AInv g s goalP hf st)
    (hcons : ∀ u v, Adj g u v → hf u ≤ 1 + hf v) {t m : Nat}
    (hsp : SPath g s t m) (hnone : st.ests t = none) :
    ∃ fe ve, (fe, ve) ∈ st.queue ∧ fe ≤ (m : Int) + hf t := by
  cases hes : st.ests s with
  | none =>
    rcases inv.inQueue s 0 inv.startScore with h | h
    · exact absurd hes h
    · refine ⟨0 + hf s, s, h, ?_⟩
      have htel := hf_telescope hcons hsp.1
      omega
  | some es =>
    obtain ⟨fe, ve, hmem, hbound⟩ := frontier_entry inv hcons hsp.1 ⟨es, hes⟩ hnone 0
      (SPath.refl s)
    refine ⟨fe, ve, hmem, ?_⟩
    push_cast at hbound
    omega

theorem pop_dist {g : UnGraph} {s : Nat} {goalP : Nat → Bool} {hf : Nat → Int}
    {st : AState} (inv : AInv g s goalP hf st)
    (hcons : ∀ u v, Adj g u v → hf u ≤ 1 + hf v)
    {f0 : Int} {u : Nat} {q' : List (Int × Nat)}
    (hpop : popMin st.queue = some ((f0, u), q')) :
    ∃ x, st.scores u = some x ∧ SPath g s u x.toNat ∧ u < g.nodes.length := by
  obtain ⟨hmem, hmin, _, _, _⟩ := popMin_spec hpop
  obtain ⟨x, hx, hxf⟩ := inv.queueScore _ hmem
  have hult := inv.scoredLt u x hx
  have hx0 := (inv.sound u x hx).1
  obtain ⟨m, hm⟩ := spath_exists (inv.sound u x hx).2
  have hmle : m ≤ x.toNat := hm.le (inv.sound u x hx).2
  cases heu : st.ests u with
  | some e =>
    obtain ⟨x2, hx2, hsp2⟩ := inv.estsDist u e heu
    have : x2 = x := by
      rw [hx] at hx2
      exact (Option.some.inj hx2).symm
    rw [this] at hsp2
    exact ⟨x, hx, hsp2, hult⟩
  | none =>
    obtain ⟨fe, ve, hqe, hbound⟩ := cover_entry inv hcons hm heu
    have hminf : f0 ≤ fe := hmin _ hqe
    have hxf2 : x + hf u ≤ f0 := hxf
    have hxle : x ≤ (m : Int) := by omega
    have hxm : x.toNat = m := by omega
    exact ⟨x, hx, by rw [hxm]; exact hm, hult⟩

theorem skip_inv {g : UnGraph} {s : Nat} {goalP : Nat → Bool} {hf : Nat → Int}
    {st : AState} (inv : AInv g s goalP hf st)
    {f0 : Int} {u : Nat} {q' : List (Int × Nat)}
    (hpop : popMin st.queue = some ((f0, u), q'))
    (hests : st.ests u ≠ none) :
    AInv g s goalP hf ⟨q', st.scores, st.ests, st.pred⟩ := by
  obtain ⟨hmem, hmin, hrem, hlen, hsub⟩ := popMin_spec hpop
  refine ⟨inv.sound, inv.startScore, inv.startPred, inv.predAdj, inv.predNone, ?_,
    inv.scoredLt, inv.estsDist, inv.estsNbrs, inv.estsNotGoal, ?_⟩
  · intro e he
    exact inv.queueScore e (hsub e he)
  · intro n x hx
    rcases inv.inQueue n x hx with h | h
    · exact Or.inl h
    · rcases hrem _ h with heq | h2
      · have hnu : n = u := congrArg Prod.snd heq
        exact Or.inl (show st.ests n ≠ none by rw [hnu]; exact hests)
      · exact Or.inr h2

theorem adj_lt {g : UnGraph}
    (HG : ∀ e ∈ g.edges, e.src < g.nodes.length ∧ e.dst < g.nodes.length)
    {u v : Nat} (h : Adj g u v) : v < g.nodes.length := by
  obtain ⟨e, he, hor⟩ := h
  rcases hor with ⟨_, h2⟩ | ⟨h1, _⟩
  · rw [← h2]
    exact (HG e he).2
  · rw [← h1]
    exact (HG e he).1

theorem relax_noop {g : UnGraph} {s : Nat} {goalP : Nat → Bool} {hf : Nat → Int}
    {u : Nat} {x : Int} {v : Nat} {todo : List Nat} {st : AState}
    (inv : AExpandInv g s goalP hf u x (v :: todo) st)
    {old : Int} (hsv : st.scores v = some old) (hge : ¬ (x + 1 < old)) :
    AExpandInv g s goalP hf u x todo st := by
  have hx0 := (inv.sound u x inv.scoreU).1
  have hcast : ((x.toNat : Int)) = x := Int.toNat_of_nonneg hx0
  refine ⟨inv.sound, inv.startScore, inv.startPred, inv.predAdj, inv.predNone,
    inv.queueScore, inv.scoredLt, inv.estsDist, ?_, inv.estsNotGoal, inv.inQueue,
    inv.scoreU, inv.distU⟩
  intro w e hw v2 hadj2
  rcases inv.estsNbrsP w e hw v2 hadj2 with ⟨hwu, hv2⟩ | hr
  · rcases List.mem_cons.mp hv2 with rfl | hv2
    · refine Or.inr ⟨old, x.toNat, hsv, by rw [hwu]; exact inv.distU, by omega⟩
    · exact Or.inl ⟨hwu, hv2⟩
  · exact Or.inr hr

theorem relax_update {g : UnGraph} {s : Nat} {goalP : Nat → Bool} {hf : Nat → Int}
    {u : Nat} {x : Int} {v : Nat} {todo : List Nat} {st : AState}
    (HG : ∀ e ∈ g.edges, e.src < g.nodes.length ∧ e.dst < g.nodes.length)
    (inv : AExpandInv g s goalP hf u x (v :: todo) st)
    (hadj : Adj g u v)
    (hcond : (∃ old, st.scores v = some old ∧ x + 1 < old) ∨ st.scores v = none) :
    AExpandInv g s goalP hf u x todo
      ⟨st.queue ++ [(x + 1 + hf v, v)],
       fun n => if n = v then some (x + 1) else st.scores n,
       st.ests,
       fun n => if n = v then some u else st.pred n⟩ := by
  have hx0 := (inv.sound u x inv.scoreU).1
  have hwu := (inv.sound u x inv.scoreU).2
  have hcast : ((x.toNat : Int)) = x := Int.toNat_of_nonneg hx0
  have huv : u ≠ v := by
    intro h
    rcases hcond with ⟨old, hsv, hlt⟩ | hsv
    · rw [← h, inv.scoreU] at hsv
      have := Option.some.inj hsv
      omega
    · rw [← h, inv.scoreU] at hsv
      cases hsv
  have hsv2 : s ≠ v := by
    intro h
    rcases hcond with ⟨old, hsv, hlt⟩ | hsv
    · rw [← h, inv.startScore] at hsv
      have := Option.some.inj hsv
      omega
    · rw [← h, inv.startScore] at hsv
      cases hsv
  have hestv : st.ests v = none := by
    cases hev : st.ests v with
    | none => rfl
    | some e =>
      obtain ⟨xv2, hxv2, hspv2⟩ := inv.estsDist v e hev
      rcases hcond with ⟨old, hsv, hlt⟩ | hsv
      · rw [hsv] at hxv2
        have hxeq := Option.some.inj hxv2
        have hv0 := (inv.sound v old hsv).1
        have hwalk : IsWalk g s v (x.toNat + 1) := hwu.snoc hadj
        have hle := hspv2.le hwalk
        rw [← hxeq] at hle
        omega
      · rw [hsv] at hxv2
        cases hxv2
  refine ⟨?_, ?_, ?_, ?_, ?_, ?_, ?_, ?_, ?_, ?_, ?_, ?_, inv.distU⟩
  · intro n y hy
    dsimp at hy
    by_cases hnv : n = v
    · rw [if_pos hnv] at hy
      have hyx := Option.some.inj hy
      constructor
      · omega
      · rw [hnv]
        have : (x + 1).toNat = x.toNat + 1 := by omega
        rw [← hyx, this]
        exact hwu.snoc hadj
    · rw [if_neg hnv] at hy
      exact inv.sound n y hy
  · show (if s = v then _ else st.scores s) = some 0
    rw [if_neg hsv2]
    exact inv.startScore
  · show (if s = v then _ else st.pred s) = none
    rw [if_neg hsv2]
    exact inv.startPred
  · intro n p hp
    dsimp at hp ⊢
    by_cases hnv : n = v
    · rw [if_pos hnv] at hp
      have hpu := Option.some.inj hp
      subst hpu
      refine ⟨by rw [hnv]; exact hadj, x + 1, x, ?_, ?_, by omega⟩
      · rw [if_pos hnv]
      · rw [if_neg huv]
        exact inv.scoreU
    · rw [if_neg hnv] at hp
      obtain ⟨hadj2, xn, xp, hxn, hxp, hstep⟩ := inv.predAdj n p hp
      by_cases hpv : p = v
      · rcases hcond with ⟨old, hsv, hlt⟩ | hsv
        · rw [hpv, hsv] at hxp
          have hxpold := Option.some.inj hxp
          refine ⟨hadj2, xn, x + 1, ?_, ?_, by omega⟩
          · rw [if_neg hnv]
            exact hxn
          · rw [if_pos hpv]
        · rw [hpv, hsv] at hxp
          cases hxp
      · refine ⟨hadj2, xn, xp, ?_, ?_, hstep⟩
        · rw [if_neg hnv]
          exact hxn
        · rw [if_neg hpv]
          exact hxp
  · intro n y hy hpn
    dsimp at hy hpn
    by_cases hnv : n = v
    · rw [if_pos hnv] at hpn
      cases hpn
    · rw [if_neg hnv] at hy hpn
      exact inv.predNone n y hy hpn
  · intro e he
    dsimp at he ⊢
    rcases List.mem_append.mp he with he | he
    · obtain ⟨y, hy, hyf⟩ := inv.queueScore e he
      by_cases hev : e.2 = v
      · rcases hcond with ⟨old, hsv, hlt⟩ | hsv
        · rw [hev, hsv] at hy
          have hyold := Option.some.inj hy
          refine ⟨x + 1, by rw [if_pos hev], by omega⟩
        · rw [hev, hsv] at hy
          cases hy
      · exact ⟨y, by rw [if_neg hev]; exact hy, hyf⟩
    · rw [List.mem_singleton] at he
      subst he
      exact ⟨x + 1, by rw [if_pos rfl], le_rfl⟩
  · intro n y hy
    dsimp at hy
    by_cases hnv : n = v
    · rw [hnv]
      exact adj_lt HG hadj
    · rw [if_neg hnv] at hy
      exact inv.scoredLt n y hy
  · intro w e hw
    dsimp at hw ⊢
    have hwv : w ≠ v := by
      intro h
      rw [h, hestv] at hw
      cases hw
    obtain ⟨y, hy, hsp⟩ := inv.estsDist w e hw
    exact ⟨y, by rw [if_neg hwv]; exact hy, hsp⟩
  · intro w e hw v2 hadj2
    dsimp at hw ⊢
    rcases inv.estsNbrsP w e hw v2 hadj2 with ⟨hwueq, hv2⟩ | ⟨xv, du, hxv, hdu, hle⟩
    · rcases List.mem_cons.mp hv2 with rfl | hv2
      · refine Or.inr ⟨x + 1, x.toNat, by rw [if_pos rfl], by rw [hwueq]; exact inv.distU, by omega⟩
      · exact Or.inl ⟨hwueq, hv2⟩
    · by_cases hv2v : v2 = v
      · rcases hcond with ⟨old, hsv, hlt⟩ | hsv
        · rw [hv2v, hsv] at hxv
          have := Option.some.inj hxv
          refine Or.inr ⟨x + 1, du, by rw [if_pos hv2v], hdu, by omega⟩
        · rw [hv2v, hsv] at hxv
          cases hxv
      · exact Or.inr ⟨xv, du, by rw [if_neg hv2v]; exact hxv, hdu, hle⟩
  · intro w e hw
    exact inv.estsNotGoal w e hw
  · intro n y hy
    dsimp at hy ⊢
    by_cases hnv : n = v
    · rw [if_pos hnv] at hy
      have := Option.some.inj hy
      refine Or.inr (List.mem_append.mpr (Or.inr ?_))
      rw [List.mem_singleton, hnv, ← this]
    · rw [if_neg hnv] at hy
      rcases inv.inQueue n y hy with h | h
      · exact Or.inl h
      · exact Or.inr (List.mem_append.mpr (Or.inl h))
  · show (if u = v then _ else st.scores u) = some x
    rw [if_neg huv]
    exact inv.scoreU

theorem relax_step {g : UnGraph} {s : Nat} {goalP : Nat → Bool} {hf : Nat → Int}
    {u : Nat} {x : Int} {v : Nat} {todo : List Nat} {st : AState}
    (HG : ∀ e ∈ g.edges, e.src < g.nodes.length ∧ e.dst < g.nodes.length)
    (inv : AExpandInv g s goalP hf u x (v :: todo) st) (hadj : Adj g u v) :
    AExpandInv g s goalP hf u x todo (relaxOne hf u x st v) := by
  cases hsv : st.scores v with
  | some old =>
    by_cases hlt : x + 1 < old
    · have hred : relaxOne hf u x st v =
          ⟨st.queue ++ [(x + 1 + hf v, v)],
           fun n => if n = v then some (x + 1) else st.scores n,
           st.ests,
           fun n => if n = v then some u else st.pred n⟩ := by
        simp only [relaxOne, hsv, if_pos hlt]
      rw [hred]
      exact relax_update HG inv hadj (Or.inl ⟨old, hsv, hlt⟩)
    · have hred : relaxOne hf u x st v = st := by
        simp only [relaxOne, hsv, if_neg hlt]
      rw [hred]
      exact relax_noop inv hsv hlt
  | none =>
    have hred : relaxOne hf u x st v =
        ⟨st.queue ++ [(x + 1 + hf v, v)],
         fun n => if n = v then some (x + 1) else st.scores n,
         st.ests,
         fun n => if n = v then some u else st.pred n⟩ := by
      simp only [relaxOne, hsv]
    rw [hred]
    exact relax_update HG inv hadj (Or.inr hsv)

theorem sum_map_update {f f2 : Nat → Nat} {v : Nat} (h : ∀ n, n ≠ v → f2 n = f n) :
    ∀ l : List Nat, l.Nodup → v ∈ l →
      (l.map f2).sum + f v = (l.map f).sum + f2 v := by
  intro l
  induction l with
  | nil => intro _ hv; cases hv
  | cons a t ih =>
    intro hnd hv
    rcases List.mem_cons.mp hv with rfl | hv
    · have hvt : v ∉ t := (List.nodup_cons.mp hnd).1
      have hmap : t.map f2 = t.map f := by
        apply List.map_congr_left
        intro n hn
        exact h n (fun he => hvt (he ▸ hn))
      simp only [List.map_cons, List.sum_cons, hmap]
      omega
    · have ha : f2 a = f a := by
        apply h
        intro he
        rw [he] at hnd
        exact (List.nodup_cons.mp hnd).1 hv
      have := ih (List.nodup_cons.mp hnd).2 hv
      simp only [List.map_cons, List.sum_cons, ha]
      omega

theorem relax_measure {g : UnGraph} {s : Nat} {goalP : Nat → Bool} {hf : Nat → Int}
    {u : Nat} {x : Int} {v : Nat} {todo : List Nat} {st : AState} {B : Nat}
    (HG : ∀ e ∈ g.edges, e.src < g.nodes.length ∧ e.dst < g.nodes.length)
    (inv : AExpandInv g s goalP hf u x (v :: todo) st) (hadj : Adj g u v)
    (hbound : x.toNat + 2 ≤ B) :
    measureA B g.nodes.length (relaxOne hf u x st v) ≤ measureA B g.nodes.length st := by
  have hx0 := (inv.sound u x inv.scoreU).1
  have hvN : v < g.nodes.length := adj_lt HG hadj
  have hmem : v ∈ List.range g.nodes.length := List.mem_range.mpr hvN
  have hnd := List.nodup_range g.nodes.length
  cases hsv : st.scores v with
  | some old =>
    by_cases hlt : x + 1 < old
    · have hred : relaxOne hf u x st v =
          ⟨st.queue ++ [(x + 1 + hf v, v)],
           fun n => if n = v then some (x + 1) else st.scores n,
           st.ests,
           fun n => if n = v then some u else st.pred n⟩ := by
        simp only [relaxOne, hsv, if_pos hlt]
      rw [hred]
      have hold0 := (inv.sound v old hsv).1
      have hpt : ∀ n, n ≠ v → scorePot B
          ⟨st.queue ++ [(x + 1 + hf v, v)],
           fun n => if n = v then some (x + 1) else st.scores n,
           st.ests,
           fun n => if n = v then some u else st.pred n⟩ n = scorePot B st n := by
        intro n hn
        simp [scorePot, if_neg hn]
      have hkey := sum_map_update hpt (List.range g.nodes.length) hnd hmem
      have hv1 : scorePot B st v = old.toNat := by simp [scorePot, hsv]
      have hv2 : scorePot B
          ⟨st.queue ++ [(x + 1 + hf v, v)],
           fun n => if n = v then some (x + 1) else st.scores n,
           st.ests,
           fun n => if n = v then some u else st.pred n⟩ v = (x + 1).toNat := by
        simp [scorePot]
      rw [hv1, hv2] at hkey
      simp only [measureA]
      simp only [List.length_append, List.length_singleton]
      omega
    · have hred : relaxOne hf u x st v = st := by
        simp only [relaxOne, hsv, if_neg hlt]
      rw [hred]
  | none =>
    have hred : relaxOne hf u x st v =
        ⟨st.queue ++ [(x + 1 + hf v, v)],
         fun n => if n = v then some (x + 1) else st.scores n,
         st.ests,
         fun n => if n = v then some u else st.pred n⟩ := by
      simp only [relaxOne, hsv]
    rw [hred]
    have hpt : ∀ n, n ≠ v → scorePot B
        ⟨st.queue ++ [(x + 1 + hf v, v)],
         fun n => if n = v then some (x + 1) else st.scores n,
         st.ests,
         fun n => if n = v then some u else st.pred n⟩ n = scorePot B st n := by
      intro n hn
      simp [scorePot, if_neg hn]
    have hkey := sum_map_update hpt (List.range g.nodes.length) hnd hmem
    have hv1 : scorePot B st v = B := by simp [scorePot, hsv]
    have hv2 : scorePot B
        ⟨st.queue ++ [(x + 1 + hf v, v)],
         fun n => if n = v then some (x + 1) else st.scores n,
         st.ests,
         fun n => if n = v then some u else st.pred n⟩ v = (x + 1).toNat := by
      simp [scorePot]
    rw [hv1, hv2] at hkey
    simp only [measureA]
    simp only [List.length_append, List.length_singleton]
    omega

theorem relax_fold {g : UnGraph} {s : Nat} {goalP : Nat → Bool} {hf : Nat → Int}
    {u : Nat} {x : Int} {B : Nat}
    (HG : ∀ e ∈ g.edges, e.src < g.nodes.length ∧ e.dst < g.nodes.length)
    (hbound : x.toNat + 2 ≤ B) :
    ∀ (todo : List Nat) (st : AState), (∀ v ∈ todo, Adj g u v) →
      AExpandInv g s goalP hf u x todo st →
      AExpandInv g s goalP hf u x [] (todo.foldl (relaxOne hf u x) st) ∧
      measureA B g.nodes.length (todo.foldl (relaxOne hf u x) st) ≤
        measureA B g.nodes.length st := by
  intro todo
  induction todo with
  | nil => intro st _ inv; exact ⟨inv, le_rfl⟩
  | cons v t ih =>
    intro st hadjs inv
    have hadj := hadjs v (List.mem_cons_self _ _)
    have hstep := relax_step HG inv hadj
    have hm := relax_measure HG inv hadj hbound
    rw [List.foldl_cons]
    obtain ⟨hinv2, hm2⟩ := ih (relaxOne hf u x st v)
      (fun w hw => hadjs w (List.mem_cons_of_mem v hw)) hstep
    exact ⟨hinv2, le_trans hm2 hm⟩

theorem aexpand_to_ainv {g : UnGraph} {s : Nat} {goalP : Nat → Bool} {hf : Nat → Int}
    {u : Nat} {x : Int} {st : AState}
    (inv : AExpandInv g s goalP hf u x [] st) : AInv g s goalP hf st := by
  refine ⟨inv.sound, inv.startScore, inv.startPred, inv.predAdj, inv.predNone,
    inv.queueScore, inv.scoredLt, inv.estsDist, ?_, inv.estsNotGoal, inv.inQueue⟩
  intro w e hw v hadj
  rcases inv.estsNbrsP w e hw v hadj with ⟨_, hv⟩ | hr
  · cases hv
  · exact hr

theorem expand_start {g : UnGraph} {s : Nat} {goalP : Nat → Bool} {hf : Nat → Int}
    {st : AState} (inv : AInv g s goalP hf st)
    {f0 : Int} {u : Nat} {q' : List (Int × Nat)} {x : Int}
    (hpop : popMin st.queue = some ((f0, u), q'))
    (hgoal : goalP u = false)
    (hx : st.scores u = some x) (hsp : SPath g s u x.toNat) :
    AExpandInv g s goalP hf u x (nbrs g u)
      ⟨q', st.scores, fun n => if n = u then some f0 else st.ests n, st.pred⟩ := by
  obtain ⟨hmem, hmin, hrem, hlen, hsub⟩ := popMin_spec hpop
  refine ⟨inv.sound, inv.startScore, inv.startPred, inv.predAdj, inv.predNone, ?_,
    inv.scoredLt, ?_, ?_, ?_, ?_, hx, hsp⟩
  · intro e he
    exact inv.queueScore e (hsub e he)
  · intro w e hw
    dsimp at hw
    by_cases hwu : w = u
    · exact ⟨x, by rw [hwu]; exact hx, by rw [hwu]; exact hsp⟩
    · rw [if_neg hwu] at hw
      exact inv.estsDist w e hw
  · intro w e hw v hadj
    dsimp at hw
    by_cases hwu : w = u
    · exact Or.inl ⟨hwu, mem_nbrs.mpr (by rw [← hwu]; exact hadj)⟩
    · rw [if_neg hwu] at hw
      rcases inv.estsNbrs w e hw v hadj with ⟨xv, du, hxv, hdu, hle⟩
      exact Or.inr ⟨xv, du, hxv, hdu, hle⟩
  · intro w e hw
    dsimp at hw
    by_cases hwu : w = u
    · rw [hwu]
      exact hgoal
    · rw [if_neg hwu] at hw
      exact inv.estsNotGoal w e hw
  · intro n y hy
    rcases inv.inQueue n y hy with h | h
    · refine Or.inl ?_
      dsimp
      by_cases hnu : n = u
      · rw [if_pos hnu]
        simp
      · rw [if_neg hnu]
        exact h
    · rcases hrem _ h with heq | h2
      · have hnu : n = u := congrArg Prod.snd heq
        refine Or.inl ?_
        dsimp
        rw [if_pos hnu]
        simp
      · exact Or.inr h2

theorem expand_preserves {g : UnGraph} {s : Nat} {goalP : Nat → Bool} {hf : Nat → Int}
    {st : AState} {B : Nat}
    (HG : ∀ e ∈ g.edges, e.src < g.nodes.length ∧ e.dst < g.nodes.length)
    (inv : AInv g s goalP hf st)
    {f0 : Int} {u : Nat} {q' : List (Int × Nat)} {x : Int}
    (hpop : popMin st.queue = some ((f0, u), q'))
    (hgoal : goalP u = false)
    (hx : st.scores u = some x) (hsp : SPath g s u x.toNat)
    (hbound : x.toNat + 2 ≤ B) :
    AInv g s goalP hf (expand g hf u f0 ⟨q', st.scores, st.ests, st.pred⟩) ∧
    measureA B g.nodes.length (expand g hf u f0 ⟨q', st.scores, st.ests, st.pred⟩) ≤
      measureA B g.nodes.length ⟨q', st.scores, st.ests, st.pred⟩ := by
  have hstart := expand_start inv hpop hgoal hx hsp
  have hgu : ((⟨q', st.scores, st.ests, st.pred⟩ : AState).scores u).getD 0 = x := by
    dsimp
    rw [hx]
    rfl
  have hexp : expand g hf u f0 ⟨q', st.scores, st.ests, st.pred⟩ =
      (nbrs g u).foldl (relaxOne hf u x)
        ⟨q', st.scores, fun n => if n = u then some f0 else st.ests n, st.pred⟩ := by
    simp only [expand, hgu]
  rw [hexp]
  obtain ⟨hinv2, hm2⟩ := relax_fold HG hbound (nbrs g u)
    ⟨q', st.scores, fun n => if n = u then some f0 else st.ests n, st.pred⟩
    (fun v hv => mem_nbrs.mp hv) hstart
  refine ⟨aexpand_to_ainv hinv2, ?_⟩
  have hsame : measureA B g.nodes.length
      ⟨q', st.scores, fun n => if n = u then some f0 else st.ests n, st.pred⟩ =
      measureA B g.nodes.length ⟨q', st.scores, st.ests, st.pred⟩ := rfl
  rw [hsame] at hm2
  exact hm2

theorem pop_measure {B N : Nat} {st : AState} {m : Int × Nat} {q' : List (Int × Nat)}
    (hpop : popMin st.queue = some (m, q')) :
    measureA B N ⟨q', st.scores, st.ests, st.pred⟩ + 1 = measureA B N st := by
  obtain ⟨_, _, _, hlen, _⟩ := popMin_spec hpop
  have hpot : scorePot B ⟨q', st.scores, st.ests, st.pred⟩ = scorePot B st := rfl
  simp only [measureA, hpot]
  omega

theorem astarLoop_correct {g : UnGraph} {s : Nat} {goalP : Nat → Bool} {hf : Nat → Int}
    {B : Nat}
    (HG : ∀ e ∈ g.edges, e.src < g.nodes.length ∧ e.dst < g.nodes.length)
    (hcons : ∀ u v, Adj g u v → hf u ≤ 1 + hf v)
    (HB : ∀ u m, SPath g s u m → m + 2 ≤ B) :
    ∀ (fuel : Nat) (st : AState), AInv g s goalP hf st →
      measureA B g.nodes.length st < fuel →
      (∃ t mt, goalP t = true ∧ SPath g s t mt) →
      ∃ (u : Nat) (m : Nat) (l : List Nat),
        astarLoop g goalP hf fuel st = some (((m : Nat) : Int), l) ∧ goalP u = true ∧
        u < g.nodes.length ∧ SPath g s u m ∧
        l.head? = some s ∧ l.getLast? = some u ∧ List.Chain' (Adj g) l ∧ l.Nodup ∧
        l.length = m + 1 := by
  intro fuel
  induction fuel with
  | zero =>
    intro st _ hm _
    omega
  | succ f ih =>
    intro st inv hm hgoal
    cases hpop : popMin st.queue with
    | none =>
      exfalso
      obtain ⟨t, mt, hgt, hsp⟩ := hgoal
      have het : st.ests t = none := by
        cases het : st.ests t with
        | none => rfl
        | some e =>
          have := inv.estsNotGoal t e het
          rw [hgt] at this
          cases this
      obtain ⟨fe, ve, hmem, _⟩ := cover_entry inv hcons hsp het
      rw [popMin_none.mp hpop] at hmem
      cases hmem
    | some p =>
      rcases p with ⟨⟨f0, u⟩, q'⟩
      obtain ⟨x, hx, hspu, hult⟩ := pop_dist inv hcons hpop
      have hx0 := (inv.sound u x hx).1
      cases hgu : goalP u with
      | true =>
        have hunf : astarLoop g goalP hf (f + 1) st =
            some ((st.scores u).getD 0,
              reconstruct st.pred ((st.scores u).getD 0).toNat u) := by
          simp only [astarLoop, hpop, hgu, if_true]
        rw [hunf]
        obtain ⟨hh, hl, hc, hw, hlen, hnd, _⟩ :=
          reconstruct_path inv x.toNat u x hx rfl x.toNat le_rfl
        have hlne : reconstruct st.pred x.toNat u ≠ [] := by
          intro h0
          rw [h0] at hh
          cases hh
        have hlpos : 1 ≤ (reconstruct st.pred x.toNat u).length :=
          List.length_pos.mpr hlne
        have hge := hspu.le hw
        have hlen2 : (reconstruct st.pred x.toNat u).length = x.toNat + 1 := by omega
        refine ⟨u, x.toNat, reconstruct st.pred x.toNat u, ?_, hgu, hult, hspu,
          hh, hl, hc, hnd, hlen2⟩
        rw [hx]
        have hgd : ((some x).getD 0) = x := rfl
        rw [hgd, Int.toNat_of_nonneg hx0]
      | false =>
        have hbound := HB u x.toNat hspu
        cases heu : st.ests u with
        | some e =>
          have hunf : astarLoop g goalP hf (f + 1) st =
              (if e ≤ f0 then astarLoop g goalP hf f ⟨q', st.scores, st.ests, st.pred⟩
               else astarLoop g goalP hf f
                 (expand g hf u f0 ⟨q', st.scores, st.ests, st.pred⟩)) := by
            simp only [astarLoop, hpop, hgu, heu, Bool.false_eq_true, if_false]
          rw [hunf]
          by_cases hef : e ≤ f0
          · rw [if_pos hef]
            have inv2 := skip_inv inv hpop (by rw [heu]; exact Option.some_ne_none e)
            have hm2 := @pop_measure B g.nodes.length st _ _ hpop
            exact ih ⟨q', st.scores, st.ests, st.pred⟩ inv2 (by omega) hgoal
          · rw [if_neg hef]
            obtain ⟨inv2, hmle⟩ := expand_preserves HG inv hpop hgu hx hspu hbound
            have hm2 := @pop_measure B g.nodes.length st _ _ hpop
            exact ih _ inv2 (by omega) hgoal
        | none =>
          have hunf : astarLoop g goalP hf (f + 1) st =
              astarLoop g goalP hf f
                (expand g hf u f0 ⟨q', st.scores, st.ests, st.pred⟩) := by
            simp only [astarLoop, hpop, hgu, heu, Bool.false_eq_true, if_false]
          rw [hunf]
          obtain ⟨inv2, hmle⟩ := expand_preserves HG inv hpop hgu hx hspu hbound
          have hm2 := @pop_measure B g.nodes.length st _ _ hpop
          exact ih _ inv2 (by omega) hgoal

theorem make_graph_edges_lt (width height : Int) :
    ∀ e ∈ (make_graph width height).edges,
      e.src < (make_graph width height).nodes.length ∧
      e.dst < (make_graph width height).nodes.length := by
  intro e he
  rw [make_graph_edges, mem_gridEdges] at he
  rw [make_graph_nodes_length]
  obtain ⟨i, hi, hcase⟩ := he
  rcases hcase with ⟨hWi, rfl⟩ | ⟨hm, rfl⟩
  · exact ⟨hi, show i - width.toNat < height.toNat * width.toNat by omega⟩
  · exact ⟨hi, show i - 1 < height.toNat * width.toNat by omega⟩

theorem coordAt_grid {width height : Int} {x y : Nat}
    (hx : x < width.toNat) (hy : y < height.toNat) :
    coordAt (make_graph width height) (y * width.toNat + x)
      = ⟨Nat.cast x, Nat.cast y⟩ := by
  rw [coordAt_make_graph (row_lt hx hy), mod_eq _ _ _ hx, div_eq _ _ _ hx]

theorem grid_walk (width height : Int) :
    ∀ (d x1 y1 x2 y2 : Nat), x1 < width.toNat → y1 < height.toNat →
      x2 < width.toNat → y2 < height.toNat →
      (x1 - x2) + (x2 - x1) + (y1 - y2) + (y2 - y1) = d →
      IsWalk (make_graph width height)
        (y1 * width.toNat + x1) (y2 * width.toNat + x2) d := by
  intro d
  induction d using Nat.strong_induction_on with
  | _ d ih =>
    intro x1 y1 x2 y2 hx1 hy1 hx2 hy2 hd
    rcases Nat.eq_zero_or_pos d with hd0 | hdpos
    · subst hd0
      obtain ⟨rfl, rfl⟩ : x1 = x2 ∧ y1 = y2 := by omega
      exact IsWalk.nil _
    · have hN1 := row_lt hx1 hy1
      by_cases hxlt : x1 < x2
      · have hx1' : x1 + 1 < width.toNat := by omega
        have hadj : Adj (make_graph width height)
            (y1 * width.toNat + x1) (y1 * width.toNat + (x1 + 1)) := by
          rw [adj_iff_unitStep width height hN1 (row_lt hx1' hy1)]
          rw [coordAt_grid hx1 hy1, coordAt_grid hx1' hy1]
          exact Or.inr ⟨rfl, show ((x1 : Int) - ((x1 + 1 : Nat) : Int)).natAbs = 1 by omega⟩
        have htail := ih (d - 1) (by omega) (x1 + 1) y1 x2 y2 hx1' hy1 hx2 hy2 (by omega)
        have hrw : d = (d - 1) + 1 := by omega
        rw [hrw]
        exact IsWalk.cons hadj htail
      · by_cases hxgt : x2 < x1
        · have hx1' : x1 - 1 < width.toNat := by omega
          have hadj : Adj (make_graph width height)
              (y1 * width.toNat + x1) (y1 * width.toNat + (x1 - 1)) := by
            rw [adj_iff_unitStep width height hN1 (row_lt hx1' hy1)]
            rw [coordAt_grid hx1 hy1, coordAt_grid hx1' hy1]
            exact Or.inr ⟨rfl, show ((x1 : Int) - ((x1 - 1 : Nat) : Int)).natAbs = 1 by omega⟩
          have htail := ih (d - 1) (by omega) (x1 - 1) y1 x2 y2 hx1' hy1 hx2 hy2 (by omega)
          have hrw : d = (d - 1) + 1 := by omega
          rw [hrw]
          exact IsWalk.cons hadj htail
        · have hxeq : x1 = x2 := by omega
          by_cases hylt : y1 < y2
          · have hy1' : y1 + 1 < height.toNat := by omega
            have hadj : Adj (make_graph width height)
                (y1 * width.toNat + x1) ((y1 + 1) * width.toNat + x1) := by
              rw [adj_iff_unitStep width height hN1 (row_lt hx1 hy1')]
              rw [coordAt_grid hx1 hy1, coordAt_grid hx1 hy1']
              exact Or.inl ⟨rfl, show ((y1 : Int) - ((y1 + 1 : Nat) : Int)).natAbs = 1 by omega⟩
            have htail := ih (d - 1) (by omega) x1 (y1 + 1) x2 y2 hx1 hy1' hx2 hy2 (by omega)
            have hrw : d = (d - 1) + 1 := by omega
            rw [hrw]
            exact IsWalk.cons hadj htail
          · have hygt : y2 < y1 := by omega
            have hy1' : y1 - 1 < height.toNat := by omega
            have hadj : Adj (make_graph width height)
                (y1 * width.toNat + x1) ((y1 - 1) * width.toNat + x1) := by
              rw [adj_iff_unitStep width height hN1 (row_lt hx1 hy1')]
              rw [coordAt_grid hx1 hy1, coordAt_grid hx1 hy1']
              exact Or.inl ⟨rfl, show ((y1 : Int) - ((y1 - 1 : Nat) : Int)).natAbs = 1 by omega⟩
            have htail := ih (d - 1) (by omega) x1 (y1 - 1) x2 y2 hx1 hy1' hx2 hy2 (by omega)
            have hrw : d = (d - 1) + 1 := by omega
            rw [hrw]
            exact IsWalk.cons hadj htail

theorem walk_manhattan_le {width height : Int} :
    ∀ {a b n : Nat}, IsWalk (make_graph width height) a b n →
      manhattan (coordAt (make_graph width height) a)
        (coordAt (make_graph width height) b) ≤ n := by
  intro a b n w
  induction w with
  | nil => simp [manhattan]
  | @cons a b c n hadj tail ih =>
    have haN : a < (make_graph width height).nodes.length :=
      adj_lt (make_graph_edges_lt width height) hadj.symm
    have hbN : b < (make_graph width height).nodes.length :=
      adj_lt (make_graph_edges_lt width height) hadj
    have hstep := (adj_iff_unitStep width height
      (by rw [make_graph_nodes_length] at haN; exact haN)
      (by rw [make_graph_nodes_length] at hbN; exact hbN)).mp hadj
    unfold manhattan at *
    unfold unitStep at hstep
    omega

theorem spath_manhattan (width height : Int) {x1 y1 x2 y2 : Nat}
    (hx1 : x1 < width.toNat) (hy1 : y1 < height.toNat)
    (hx2 : x2 < width.toNat) (hy2 : y2 < height.toNat) :
    SPath (make_graph width height)
      (y1 * width.toNat + x1) (y2 * width.toNat + x2)
      (manhattan ⟨Nat.cast x1, Nat.cast y1⟩ ⟨Nat.cast x2, Nat.cast y2⟩) := by
  have hman : manhattan ⟨Nat.cast x1, Nat.cast y1⟩ ⟨Nat.cast x2, Nat.cast y2⟩
      = (x1 - x2) + (x2 - x1) + ((y1 - y2) + (y2 - y1)) := by
    unfold manhattan
    dsimp
    omega
  constructor
  · rw [hman]
    have := grid_walk width height ((x1 - x2) + (x2 - x1) + (y1 - y2) + (y2 - y1))
      x1 y1 x2 y2 hx1 hy1 hx2 hy2 rfl
    have harr : (x1 - x2) + (x2 - x1) + (y1 - y2) + (y2 - y1)
        = (x1 - x2) + (x2 - x1) + ((y1 - y2) + (y2 - y1)) := by omega
    rw [harr] at this
    exact this
  · intro n wn
    have := walk_manhattan_le wn
    rw [coordAt_grid hx1 hy1, coordAt_grid hx2 hy2] at this
    rw [hman]
    rw [hman] at this
    exact this

theorem sqrt_consistent (d d' c : Nat) (h : d' ≤ d + 1) :
    Nat.sqrt (d' * d' + c * c) ≤ Nat.sqrt (d * d + c * c) + 1 := by
  have hs : d ≤ Nat.sqrt (d * d + c * c) := by
    have h2 := Nat.sqrt_le_sqrt (Nat.le_add_right (d * d) (c * c))
    rwa [Nat.sqrt_eq] at h2
  have hlt : d * d + c * c
      < (Nat.sqrt (d * d + c * c) + 1) * (Nat.sqrt (d * d + c * c) + 1) :=
    Nat.sqrt_lt.mp (Nat.lt_succ_self _)
  have hd2 : d' * d' ≤ (d + 1) * (d + 1) := Nat.mul_le_mul h h
  have key : d' * d' + c * c
      < (Nat.sqrt (d * d + c * c) + 2) * (Nat.sqrt (d * d + c * c) + 2) := by
    have e1 : (d + 1) * (d + 1) = d * d + 2 * d + 1 := by ring
    have e2 : (Nat.sqrt (d * d + c * c) + 1) * (Nat.sqrt (d * d + c * c) + 1)
        = Nat.sqrt (d * d + c * c) * Nat.sqrt (d * d + c * c)
          + 2 * Nat.sqrt (d * d + c * c) + 1 := by ring
    have e3 : (Nat.sqrt (d * d + c * c) + 2) * (Nat.sqrt (d * d + c * c) + 2)
        = Nat.sqrt (d * d + c * c) * Nat.sqrt (d * d + c * c)
          + 4 * Nat.sqrt (d * d + c * c) + 4 := by ring
    omega
  have hfin := Nat.sqrt_lt.mpr key
  omega

theorem distanceSq_toNat (a b : Coordinate2D) :
    (Coordinate2D.distanceSq a b).toNat
      = (a.y - b.y).natAbs * (a.y - b.y).natAbs
        + (a.x - a.y).natAbs * (a.x - a.y).natAbs := by
  have h1 := @Int.natAbs_mul_self (a.y - b.y)
  have h2 := @Int.natAbs_mul_self (a.x - a.y)
  have h3 : Coordinate2D.distanceSq a b
      = (((a.y - b.y).natAbs * (a.y - b.y).natAbs
          + (a.x - a.y).natAbs * (a.x - a.y).natAbs : Nat) : Int) := by
    unfold Coordinate2D.distanceSq
    rw [Nat.cast_add, h1, h2]
    ring
  rw [h3]
  omega

theorem grid_hcons (width height : Int) (end_ : Coordinate2D) :
    ∀ u v, Adj (make_graph width height) u v →
      Coordinate2D.distanceFloor end_ (coordAt (make_graph width height) u)
        ≤ 1 + Coordinate2D.distanceFloor end_ (coordAt (make_graph width height) v) := by
  intro u v hadj
  have huN : u < (make_graph width height).nodes.length :=
    adj_lt (make_graph_edges_lt width height) hadj.symm
  have hvN : v < (make_graph width height).nodes.length :=
    adj_lt (make_graph_edges_lt width height) hadj
  rw [make_graph_nodes_length] at huN hvN
  have hstep := (adj_iff_unitStep width height huN hvN).mp hadj
  unfold Coordinate2D.distanceFloor
  rw [distanceSq_toNat, distanceSq_toNat]
  rcases hstep with ⟨hx, hy⟩ | ⟨hy, hx⟩
  · have hle : (end_.y - (coordAt (make_graph width height) u).y).natAbs
        ≤ (end_.y - (coordAt (make_graph width height) v).y).natAbs + 1 := by omega
    have hsq := sqrt_consistent
      ((end_.y - (coordAt (make_graph width height) v).y).natAbs)
      ((end_.y - (coordAt (make_graph width height) u).y).natAbs)
      ((end_.x - end_.y).natAbs) hle
    omega
  · rw [hy]
    omega

theorem walk_lt {g : UnGraph}
    (HG : ∀ e ∈ g.edges, e.src < g.nodes.length ∧ e.dst < g.nodes.length) :
    ∀ {a b n : Nat}, IsWalk g a b n → a < g.nodes.length → b < g.nodes.length := by
  intro a b n w
  induction w with
  | nil => exact id
  | cons h tail ih => intro _; exact ih (adj_lt HG h)

theorem find_unique {α : Type} {p : α → Bool} :
    ∀ {l : List α} {a : α}, a ∈ l → p a = true →
      (∀ b ∈ l, p b = true → b = a) → l.find? p = some a := by
  intro l
  induction l with
  | nil => intro a h; cases h
  | cons x xs ih =>
    intro a hmem hpa huniq
    by_cases hx : p x = true
    · have hxa : x = a := huniq x (List.mem_cons_self x xs) hx
      subst hxa
      simp only [List.find?_cons, hx]
    · have hmem' : a ∈ xs := by
        rcases List.mem_cons.mp hmem with rfl | h
        · exact absurd hpa hx
        · exact h
      have hx' : p x = false := by
        cases hpx : p x
        · rfl
        · exact absurd hpx hx
      simp only [List.find?_cons, hx']
      exact ih hmem' hpa (fun b hb hpb => huniq b (List.mem_cons_of_mem x hb) hpb)

theorem grid_coord_inj {width height : Int} {b x y : Nat}
    (hb : b < height.toNat * width.toNat)
    (hc : coordAt (make_graph width height) b = ⟨(x : Int), (y : Int)⟩) :
    b = y * width.toNat + x := by
  rw [coordAt_make_graph hb] at hc
  have h1 : ((b % width.toNat : Nat) : Int) = (x : Int) := congrArg Coordinate2D.x hc
  have h2 : ((b / width.toNat : Nat) : Int) = (y : Int) := congrArg Coordinate2D.y hc
  obtain ⟨r, hr⟩ : ∃ r, b % width.toNat = r := ⟨_, rfl⟩
  obtain ⟨q, hq⟩ : ∃ q, b / width.toNat = q := ⟨_, rfl⟩
  rw [hr] at h1
  rw [hq] at h2
  have hdm := Nat.div_add_mod b width.toNat
  rw [hq, hr] at hdm
  have hrx : r = x := by omega
  have hqy : q = y := by omega
  rw [hrx, hqy] at hdm
  have hmc : width.toNat * y = y * width.toNat := Nat.mul_comm _ _
  omega

theorem AInv_init (g : UnGraph) (s : Nat) (goalP : Nat → Bool) (hf : Nat → Int)
    (hs : s < g.nodes.length) :
    AInv g s goalP hf
      ⟨[(hf s, s)], fun n => if n = s then some 0 else none,
       fun _ => none, fun _ => none⟩ := by
  refine ⟨?_, ?_, ?_, ?_, ?_, ?_, ?_, ?_, ?_, ?_, ?_⟩
  · intro n x hx
    dsimp at hx
    by_cases hn : n = s
    · rw [if_pos hn] at hx
      obtain rfl : (0 : Int) = x := Option.some.inj hx
      subst hn
      exact ⟨le_refl 0, IsWalk.nil n⟩
    · rw [if_neg hn] at hx
      cases hx
  · simp
  · rfl
  · intro n p h
    exact Option.noConfusion h
  · intro n x hx _
    dsimp at hx
    by_cases hn : n = s
    · exact hn
    · rw [if_neg hn] at hx
      cases hx
  · intro e he
    rw [List.mem_singleton] at he
    subst he
    exact ⟨0, by simp, by simp⟩
  · intro n x hx
    dsimp at hx
    by_cases hn : n = s
    · subst hn
      exact hs
    · rw [if_neg hn] at hx
      cases hx
  · intro u e h
    exact Option.noConfusion h
  · intro u e h
    exact Option.noConfusion h
  · intro u e h
    exact Option.noConfusion h
  · intro n x hx
    right
    dsimp at hx ⊢
    by_cases hn : n = s
    · subst hn
      rw [if_pos rfl] at hx
      obtain rfl : (0 : Int) = x := Option.some.inj hx
      simp
    · rw [if_neg hn] at hx
      cases hx

theorem sum_map_le_mul (f : Nat → Nat) (B : Nat) (h : ∀ n, f n ≤ B) :
    ∀ N, ((List.range N).map f).sum ≤ N * B := by
  intro N
  induction N with
  | zero => simp
  | succ n ih =>
    rw [List.range_succ, List.map_append, List.sum_append, Nat.succ_mul]
    simp only [List.map_cons, List.map_nil, List.sum_cons, List.sum_nil]
    have := h n
    omega

theorem astar_correct {g : UnGraph} {s : Nat} {goalP : Nat → Bool} {hf : Nat → Int}
    (HG : ∀ e ∈ g.edges, e.src < g.nodes.length ∧ e.dst < g.nodes.length)
    (hcons : ∀ u v, Adj g u v → hf u ≤ 1 + hf v)
    (HB : ∀ u m, SPath g s u m → m + 2 ≤ g.nodes.length + 2)
    (hs : s < g.nodes.length)
    (hex : ∃ t mt, goalP t = true ∧ SPath g s t mt) :
    ∃ (u : Nat) (m : Nat) (l : List Nat),
      astar g s goalP hf = some (((m : Nat) : Int), l) ∧ goalP u = true ∧
      u < g.nodes.length ∧ SPath g s u m ∧
      l.head? = some s ∧ l.getLast? = some u ∧ List.Chain' (Adj g) l ∧ l.Nodup ∧
      l.length = m + 1 := by
  have hinv := AInv_init g s goalP hf hs
  have hpot : ∀ n, scorePot (g.nodes.length + 2)
      ⟨[(hf s, s)], fun n => if n = s then some 0 else none,
       fun _ => none, fun _ => none⟩ n ≤ g.nodes.length + 2 := by
    intro n
    unfold scorePot
    by_cases hn : n = s <;> simp [hn]
  have hsum := sum_map_le_mul (scorePot (g.nodes.length + 2)
      ⟨[(hf s, s)], fun n => if n = s then some 0 else none,
       fun _ => none, fun _ => none⟩) (g.nodes.length + 2) hpot g.nodes.length
  have hmeas : measureA (g.nodes.length + 2) g.nodes.length
      ⟨[(hf s, s)], fun n => if n = s then some 0 else none,
       fun _ => none, fun _ => none⟩ < astarFuel g := by
    unfold measureA astarFuel
    dsimp only
    simp only [List.length_cons, List.length_nil]
    have hexp : 2 * (g.nodes.length + 2) * g.nodes.length
        = 2 * (g.nodes.length * (g.nodes.length + 2)) := by ring
    omega
  exact astarLoop_correct HG hcons HB (astarFuel g) _ hinv hmeas hex

/-- C1 (amended): the claim quantifies over all dimensions at least 1, but
the program's i16 arithmetic crashes inside that domain — `make_graph`
panics whenever W·H lands in [16384, 32767] (see `C1_grid_overflow_crash`),
and `distance()` overflows i16 once a coordinate difference reaches 182 —
so the shortest-path property is restated on the machine-safe regime
`width ≤ 128`, `height ≤ 128`, `width * height ≤ 16383`, where the prologue
stays in i16 range and every heuristic radicand is at most
`127^2 + 127^2 = 32258 ≤ 32767`. There, for any start and goal inside the
`[0,width) × [0,height)` rectangle, `find_path` returns `Some`; the returned
cost equals the Manhattan distance between start and goal, and the returned
node sequence is a simple path in the graph (consecutive nodes adjacent, no
repeats) leading from the node carrying the start coordinate to the node
carrying the goal coordinate, with length `cost + 1`. -/
theorem C1_find_path_shortest (width height : Int) (start goal : Coordinate2D)
    (hW : 1 ≤ width) (hH : 1 ≤ height)
    (hWb : width ≤ 128) (hHb : height ≤ 128) (hA : width * height ≤ 16383)
    (hstart : inRect width height start) (hgoal : inRect width height goal) :
    ∃ (cost : Nat) (path : List Nat),
      find_path (make_graph width height) start goal = some ((cost : Int), path) ∧
      cost = manhattan start goal ∧
      (∃ si, path.head? = some si ∧ coordAt (make_graph width height) si = start) ∧
      (∃ gi, path.getLast? = some gi ∧ coordAt (make_graph width height) gi = goal) ∧
      List.Chain' (Adj (make_graph width height)) path ∧
      path.Nodup ∧ path.length = cost + 1 := by
  obtain ⟨sx, sy⟩ := start
  obtain ⟨gx, gy⟩ := goal
  simp only [inRect] at hstart hgoal
  obtain ⟨hsx0, hsxW, hsy0, hsyH⟩ := hstart
  obtain ⟨hgx0, hgxW, hgy0, hgyH⟩ := hgoal
  have hW0 : 0 < width.toNat := by omega
  have hH0 : 0 < height.toNat := by omega
  obtain ⟨x1, hx1c⟩ : ∃ n : Nat, (n : Int) = sx := ⟨sx.toNat, by omega⟩
  obtain ⟨y1, hy1c⟩ : ∃ n : Nat, (n : Int) = sy := ⟨sy.toNat, by omega⟩
  obtain ⟨x2, hx2c⟩ : ∃ n : Nat, (n : Int) = gx := ⟨gx.toNat, by omega⟩
  obtain ⟨y2, hy2c⟩ : ∃ n : Nat, (n : Int) = gy := ⟨gy.toNat, by omega⟩
  have hx1' : x1 < width.toNat := by omega
  have hy1' : y1 < height.toNat := by omega
  have hx2' : x2 < width.toNat := by omega
  have hy2' : y2 < height.toNat := by omega
  have hcs : coordAt (make_graph width height) (y1 * width.toNat + x1) = ⟨sx, sy⟩ := by
    rw [coordAt_grid hx1' hy1', hx1c, hy1c]
  have hcg : coordAt (make_graph width height) (y2 * width.toNat + x2) = ⟨gx, gy⟩ := by
    rw [coordAt_grid hx2' hy2', hx2c, hy2c]
  have hsN : y1 * width.toNat + x1 < (make_graph width height).nodes.length := by
    rw [make_graph_nodes_length]
    exact row_lt hx1' hy1'
  have hfind : (List.range (make_graph width height).nodes.length).find?
      (fun i => decide (coordAt (make_graph width height) i = ⟨sx, sy⟩))
      = some (y1 * width.toNat + x1) := by
    apply find_unique
    · exact List.mem_range.mpr hsN
    · exact decide_eq_true hcs
    · intro b hb hpb
      rw [List.mem_range, make_graph_nodes_length] at hb
      have hcb : coordAt (make_graph width height) b = ⟨sx, sy⟩ := of_decide_eq_true hpb
      rw [← hx1c, ← hy1c] at hcb
      exact grid_coord_inj hb hcb
  have hfp : find_path (make_graph width height) ⟨sx, sy⟩ ⟨gx, gy⟩
      = astar (make_graph width height) (y1 * width.toNat + x1)
          (fun n => decide (coordAt (make_graph width height) n = ⟨gx, gy⟩))
          (fun n => Coordinate2D.distanceFloor ⟨gx, gy⟩
            (coordAt (make_graph width height) n)) := by
    unfold find_path
    rw [hfind]
  have HB : ∀ u m, SPath (make_graph width height) (y1 * width.toNat + x1) u m →
      m + 2 ≤ (make_graph width height).nodes.length + 2 := by
    intro u m hsp
    rw [make_graph_nodes_length]
    have huN : u < (make_graph width height).nodes.length :=
      walk_lt (make_graph_edges_lt width height) hsp.1 hsN
    rw [make_graph_nodes_length] at huN
    obtain ⟨r, hr⟩ : ∃ r, u % width.toNat = r := ⟨_, rfl⟩
    obtain ⟨q, hq⟩ : ∃ q, u / width.toNat = q := ⟨_, rfl⟩
    have hdm := Nat.div_add_mod u width.toNat
    rw [hr, hq] at hdm
    have hrW : r < width.toNat := by
      rw [← hr]
      exact Nat.mod_lt _ hW0
    have hqH : q < height.toNat := by
      rw [← hq]
      exact (Nat.div_lt_iff_lt_mul hW0).mpr huN
    have hueq : u = q * width.toNat + r := by
      have hmc : width.toNat * q = q * width.toNat := Nat.mul_comm _ _
      omega
    subst hueq
    have hmeq := hsp.unique (spath_manhattan width height hx1' hy1' hrW hqH)
    have hman : manhattan ⟨(x1 : Int), (y1 : Int)⟩ ⟨(r : Int), (q : Int)⟩
        = (x1 - r) + (r - x1) + ((y1 - q) + (q - y1)) := by
      unfold manhattan
      dsimp
      omega
    obtain ⟨a2, ha2⟩ : ∃ a2, width.toNat = a2 + 1 := ⟨width.toNat - 1, by omega⟩
    obtain ⟨b2, hb2⟩ : ∃ b2, height.toNat = b2 + 1 := ⟨height.toNat - 1, by omega⟩
    rw [hb2, ha2]
    have hexp : (b2 + 1) * (a2 + 1) = b2 * a2 + b2 + a2 + 1 := by ring
    omega
  have hex : ∃ t mt,
      (fun n => decide (coordAt (make_graph width height) n = ⟨gx, gy⟩)) t = true ∧
      SPath (make_graph width height) (y1 * width.toNat + x1) t mt :=
    ⟨y2 * width.toNat + x2, manhattan ⟨(x1 : Int), (y1 : Int)⟩ ⟨(x2 : Int), (y2 : Int)⟩,
     decide_eq_true hcg, spath_manhattan width height hx1' hy1' hx2' hy2'⟩
  obtain ⟨u, m, l, heq, hgu, huN, hspu, hhead, hlast, hchain, hnodup, hlen⟩ :=
    astar_correct (make_graph_edges_lt width height)
      (grid_hcons width height ⟨gx, gy⟩) HB hsN hex
  have hcu : coordAt (make_graph width height) u = ⟨gx, gy⟩ := of_decide_eq_true hgu
  have hueq : u = y2 * width.toNat + x2 := by
    apply grid_coord_inj (by rwa [make_graph_nodes_length] at huN)
    rw [hx2c, hy2c]
    exact hcu
  subst hueq
  have hmeq : m = manhattan ⟨(x1 : Int), (y1 : Int)⟩ ⟨(x2 : Int), (y2 : Int)⟩ :=
    hspu.unique (spath_manhattan width height hx1' hy1' hx2' hy2')
  refine ⟨m, l, ?_, ?_, ⟨y1 * width.toNat + x1, hhead, hcs⟩,
    ⟨y2 * width.toNat + x2, hlast, hcu⟩, hchain, hnodup, hlen⟩
  · rw [hfp]
    exact heq
  · rw [hmeq, ← hx1c, ← hy1c, ← hx2c, ← hy2c]

/-- C1 (counterexample): width = height = 128 and the corner coordinates
(0,0), (127,127) satisfy every hypothesis of the claim — dimensions at least
1, start and goal inside the rectangle — yet `find_path` can never return:
`make_graph` panics in its i16 prologue in every build mode (checked:
`node_count * 2 = 32768` overflows i16; release: it wraps to -32768 and the
`as usize` cast makes `UnGraph::with_capacity` request a capacity-overflowing
allocation). -/
theorem C1_grid_overflow_crash :
    (1 : Int) ≤ 128 ∧ inRect 128 128 ⟨0, 0⟩ ∧ inRect 128 128 ⟨127, 127⟩ ∧
    make_graph_panics 128 128 :=
  ⟨by norm_num, ⟨by decide, by decide, by decide, by decide⟩,
   ⟨by decide, by decide, by decide, by decide⟩,
   i16_band_panics 128 128 (by norm_num) (by norm_num)⟩

theorem C1_witness :
    ∃ (cost : Nat) (path : List Nat),
      find_path (make_graph 3 3) ⟨0, 0⟩ ⟨2, 2⟩ = some ((cost : Int), path) ∧
      cost = manhattan ⟨0, 0⟩ ⟨2, 2⟩ ∧
      (∃ si, path.head? = some si ∧ coordAt (make_graph 3 3) si = ⟨0, 0⟩) ∧
      (∃ gi, path.getLast? = some gi ∧ coordAt (make_graph 3 3) gi = ⟨2, 2⟩) ∧
      List.Chain' (Adj (make_graph 3 3)) path ∧
      path.Nodup ∧ path.length = cost + 1 :=
  C1_find_path_shortest 3 3 ⟨0, 0⟩ ⟨2, 2⟩ (by decide) (by decide)
    (by decide) (by decide) (by decide)
    ⟨by decide, by decide, by decide, by decide⟩
    ⟨by decide, by decide, by decide, by decide⟩

theorem bfsVisit_eq (g : UnGraph) (u : Nat) (st : BfsState) :
    bfsVisit g u st = bfsFold (nbrs g u) st := rfl

theorem bfsFold_spec :
    ∀ (l : List Nat) (st : BfsState),
      ∃ add : List Nat,
        (bfsFold l st).stack = st.stack ++ add ∧
        (∀ n, (bfsFold l st).discovered n = true ↔
          st.discovered n = true ∨ n ∈ add) ∧
        add.Nodup ∧
        (∀ a ∈ add, st.discovered a = false ∧ a ∈ l) ∧
        (∀ v ∈ l, st.discovered v = false → v ∈ add) := by
  intro l
  induction l with
  | nil =>
    intro st
    exact ⟨[], by simp [bfsFold], by simp [bfsFold], List.nodup_nil,
      by simp, by simp⟩
  | cons v l ih =>
    intro st
    by_cases hd : st.discovered v = true
    · have hstep : bfsFold (v :: l) st = bfsFold l st := by
        unfold bfsFold
        rw [List.foldl_cons, if_pos hd]
      obtain ⟨add, h1, h2, h3, h4, h5⟩ := ih st
      refine ⟨add, by rw [hstep]; exact h1, by rw [hstep]; exact h2, h3, ?_, ?_⟩
      · intro a ha
        exact ⟨(h4 a ha).1, List.mem_cons_of_mem v (h4 a ha).2⟩
      · intro w hw hwd
        rcases List.mem_cons.mp hw with rfl | hw'
        · rw [hwd] at hd
          cases hd
        · exact h5 w hw' hwd
    · have hdf : st.discovered v = false := by
        cases h : st.discovered v
        · rfl
        · exact absurd h hd
      have hstep : bfsFold (v :: l) st
          = bfsFold l ⟨st.stack ++ [v], fun n => if n = v then true else st.discovered n⟩ := by
        unfold bfsFold
        rw [List.foldl_cons, if_neg hd]
      obtain ⟨add, h1, h2, h3, h4, h5⟩ :=
        ih ⟨st.stack ++ [v], fun n => if n = v then true else st.discovered n⟩
      have hvadd : v ∉ add := by
        intro hv
        have := (h4 v hv).1
        dsimp at this
        rw [if_pos rfl] at this
        cases this
      refine ⟨v :: add, ?_, ?_, ?_, ?_, ?_⟩
      · rw [hstep, h1]
        simp
      · intro n
        rw [hstep, h2 n]
        dsimp
        by_cases hn : n = v
        · subst hn
          simp
        · rw [if_neg hn]
          simp [hn]
      · exact List.nodup_cons.mpr ⟨hvadd, h3⟩
      · intro a ha
        rcases List.mem_cons.mp ha with rfl | ha'
        · exact ⟨hdf, List.mem_cons_self a l⟩
        · have h4a := h4 a ha'
          have hane : a ≠ v := by
            intro hav
            have := h4a.1
            dsimp at this
            rw [if_pos hav] at this
            cases this
          have := h4a.1
          dsimp at this
          rw [if_neg hane] at this
          exact ⟨this, List.mem_cons_of_mem v h4a.2⟩
      · intro w hw hwd
        rcases List.mem_cons.mp hw with rfl | hw'
        · exact List.mem_cons_self w add
        · by_cases hwv : w = v
          · subst hwv
            exact List.mem_cons_self w add
          · have hst : (fun n => if n = v then true else st.discovered n) w = false := by
              dsimp
              rw [if_neg hwv]
              exact hwd
            exact List.mem_cons_of_mem v (h5 w hw' hst)

theorem countP_exclude (p : Nat → Bool) (a : Nat) :
    ∀ N, a < N → p a = true →
      (List.range N).countP (fun n => p n && !(n == a)) + 1
        = (List.range N).countP p := by
  intro N
  induction N with
  | zero => intro h; omega
  | succ N ih =>
    intro ha hpa
    rw [List.range_succ, List.countP_append, List.countP_append]
    by_cases haN : a = N
    · subst haN
      have hcongr : (List.range a).countP (fun n => p n && !(n == a))
          = (List.range a).countP p := by
        apply List.countP_congr
        intro n hn
        rw [List.mem_range] at hn
        have : (n == a) = false := by
          simp only [beq_eq_false_iff_ne]
          omega
        rw [this]
        simp
      rw [hcongr]
      have h1 : [a].countP (fun n => p n && !(n == a)) = 0 := by
        simp [List.countP_cons]
      have h2 : [a].countP p = 1 := by
        simp [List.countP_cons, hpa]
      omega
    · have ha' : a < N := by omega
      have hih := ih ha' hpa
      have hN : (N == a) = false := by
        simp only [beq_eq_false_iff_ne]
        omega
      have h1 : [N].countP (fun n => p n && !(n == a)) = [N].countP p := by
        simp [List.countP_cons, hN]
      omega

theorem countP_sub (N : Nat) (disc : Nat → Bool) :
    ∀ add : List Nat, add.Nodup → (∀ x ∈ add, x < N ∧ disc x = false) →
      (List.range N).countP (fun n => !disc n && !(decide (n ∈ add))) + add.length
        = (List.range N).countP (fun n => !disc n) := by
  intro add
  induction add with
  | nil =>
    intro _ _
    simp
  | cons a as ih =>
    intro hnd hmem
    have hih := ih (List.nodup_cons.mp hnd).2
      (fun x hx => hmem x (List.mem_cons_of_mem a hx))
    have hcongr : (List.range N).countP (fun n => !disc n && !(decide (n ∈ a :: as)))
        = (List.range N).countP
            (fun n => (!disc n && !(decide (n ∈ as))) && !(n == a)) := by
      apply List.countP_congr
      intro n _
      by_cases hna : n = a <;> by_cases hnas : n ∈ as <;> simp [hna, hnas]
    have hexc := countP_exclude (fun n => !disc n && !(decide (n ∈ as))) a N
      (hmem a (List.mem_cons_self a as)).1
      (by
        have h1 := (hmem a (List.mem_cons_self a as)).2
        have h2 : a ∉ as := (List.nodup_cons.mp hnd).1
        simp [h1, h2])
    have hexc2 : (List.range N).countP
        (fun n => !disc n && !(decide (n ∈ as)) && !(n == a)) + 1
        = (List.range N).countP (fun n => !disc n && !(decide (n ∈ as))) := hexc
    rw [hcongr]
    simp only [List.length_cons]
    omega

theorem bfsStep_inv {g : UnGraph}
    (HG : ∀ e ∈ g.edges, e.src < g.nodes.length ∧ e.dst < g.nodes.length)
    {popped : List Nat} {u : Nat} {rest : List Nat} {disc : Nat → Bool}
    (inv : BfsInv g popped ⟨u :: rest, disc⟩) :
    BfsInv g (popped ++ [u]) (bfsVisit g u ⟨rest, disc⟩) ∧
    measureB g.nodes.length (bfsVisit g u ⟨rest, disc⟩)
      < measureB g.nodes.length ⟨u :: rest, disc⟩ := by
  rw [bfsVisit_eq]
  obtain ⟨add, h1, h2, h3, h4, h5⟩ := bfsFold_spec (nbrs g u) ⟨rest, disc⟩
  have hdiscmem : ∀ n, disc n = true → n ∈ popped ∨ n = u ∨ n ∈ rest := by
    intro n hn
    rcases (inv.discIff n).mp hn with h | h
    · exact Or.inl h
    · rcases List.mem_cons.mp h with h' | h'
      · exact Or.inr (Or.inl h')
      · exact Or.inr (Or.inr h')
  have haddlt : ∀ a ∈ add, a < g.nodes.length := by
    intro a ha
    exact adj_lt HG (mem_nbrs.mp (h4 a ha).2)
  constructor
  · refine ⟨?_, ?_, ?_, ?_⟩
    · intro n
      rw [h2 n]
      constructor
      · rintro (hn | hn)
        · rcases hdiscmem n hn with h | h | h
          · exact Or.inl (List.mem_append_left _ h)
          · exact Or.inl (List.mem_append_right _ (by simp [h]))
          · exact Or.inr (by rw [h1]; exact List.mem_append_left _ h)
        · exact Or.inr (by rw [h1]; exact List.mem_append_right _ hn)
      · rintro (hn | hn)
        · rcases List.mem_append.mp hn with h | h
          · exact Or.inl ((inv.discIff n).mpr (Or.inl h))
          · rw [List.mem_singleton] at h
            exact Or.inl ((inv.discIff n).mpr (Or.inr (by simp [h])))
        · rw [h1] at hn
          rcases List.mem_append.mp hn with h | h
          · exact Or.inl ((inv.discIff n).mpr (Or.inr (List.mem_cons_of_mem u h)))
          · exact Or.inr h
    · have hnd := inv.nodup
      rw [h1]
      have heq : (popped ++ [u]) ++ ((⟨rest, disc⟩ : BfsState).stack ++ add)
          = (popped ++ u :: rest) ++ add := by
        simp [List.append_assoc]
      rw [heq, List.nodup_append]
      refine ⟨hnd, h3, ?_⟩
      intro a ha hb
      have hdisc : disc a = true := (inv.discIff a).mpr (by
        rcases List.mem_append.mp ha with h | h
        · exact Or.inl h
        · rcases List.mem_cons.mp h with h' | h'
          · exact Or.inr (by simp [h'])
          · exact Or.inr (List.mem_cons_of_mem u h'))
      have := (h4 a hb).1
      dsimp at this
      rw [hdisc] at this
      cases this
    · intro w hw v hadj
      rw [h2 v]
      rcases List.mem_append.mp hw with h | h
      · exact Or.inl (inv.poppedClosed w h v hadj)
      · rw [List.mem_singleton] at h
        subst h
        have hvnbrs : v ∈ nbrs g w := mem_nbrs.mpr hadj
        by_cases hvd : disc v = true
        · exact Or.inl hvd
        · have : disc v = false := by
            cases hd : disc v
            · rfl
            · exact absurd hd hvd
          exact Or.inr (h5 v hvnbrs this)
    · intro n hn
      rw [h2 n] at hn
      rcases hn with h | h
      · exact inv.discLt n h
      · exact haddlt n h
  · unfold measureB
    dsimp
    rw [h1]
    have hcount := countP_sub g.nodes.length disc add h3
      (fun x hx => ⟨haddlt x hx, (h4 x hx).1⟩)
    have hcongr : (List.range g.nodes.length).countP
        (fun n => !(bfsFold (nbrs g u) ⟨rest, disc⟩).discovered n)
        = (List.range g.nodes.length).countP
            (fun n => !disc n && !(decide (n ∈ add))) := by
      apply List.countP_congr
      intro n _
      cases hd : (bfsFold (nbrs g u) ⟨rest, disc⟩).discovered n
      · have : ¬ (disc n = true ∨ n ∈ add) := by
          intro hor
          rw [← h2 n] at hor
          rw [hor] at hd
          cases hd
        push_neg at this
        obtain ⟨hd1, hd2⟩ := this
        have hd1' : disc n = false := by
          cases hdn : disc n
          · rfl
          · exact absurd hdn hd1
        simp [hd1', hd2]
      · rcases (h2 n).mp hd with h | h
        · have h' : disc n = true := h
          simp [h']
        · simp [h]
    rw [hcongr]
    rw [List.length_append]
    simp only [List.length_cons]
    omega

theorem bfsRun_complete {g : UnGraph}
    (HG : ∀ e ∈ g.edges, e.src < g.nodes.length ∧ e.dst < g.nodes.length) :
    ∀ (fuel : Nat) (popped : List Nat) (st : BfsState), BfsInv g popped st →
      measureB g.nodes.length st < fuel →
      (popped ++ bfsRun g fuel st).Nodup ∧
      (∀ n, st.discovered n = true → n ∈ popped ++ bfsRun g fuel st) ∧
      (∀ u ∈ popped ++ bfsRun g fuel st, ∀ v, Adj g u v →
        v ∈ popped ++ bfsRun g fuel st) ∧
      (∀ n ∈ bfsRun g fuel st, n < g.nodes.length) := by
  intro fuel
  induction fuel with
  | zero =>
    intro popped st _ hm
    omega
  | succ fuel ih =>
    intro popped st inv hm
    obtain ⟨stack, disc⟩ := st
    cases stack with
    | nil =>
      have hrun : bfsRun g (fuel + 1) ⟨[], disc⟩ = [] := rfl
      rw [hrun]
      refine ⟨by simpa using inv.nodup, ?_, ?_, by simp⟩
      · intro n hn
        rcases (inv.discIff n).mp hn with h | h
        · simpa using h
        · cases h
      · intro u hu v hadj
        rw [List.append_nil] at hu
        have := inv.poppedClosed u hu v hadj
        rcases (inv.discIff v).mp this with h | h
        · simpa using h
        · cases h
    | cons u rest =>
      have hrun : bfsRun g (fuel + 1) ⟨u :: rest, disc⟩
          = u :: bfsRun g fuel (bfsVisit g u ⟨rest, disc⟩) := rfl
      rw [hrun]
      obtain ⟨inv2, hm2⟩ := bfsStep_inv HG inv
      have hih := ih (popped ++ [u]) (bfsVisit g u ⟨rest, disc⟩) inv2 (by omega)
      obtain ⟨ih1, ih2, ih3, ih4⟩ := hih
      have hlist : popped ++ u :: bfsRun g fuel (bfsVisit g u ⟨rest, disc⟩)
          = (popped ++ [u]) ++ bfsRun g fuel (bfsVisit g u ⟨rest, disc⟩) := by
        simp
      refine ⟨by rw [hlist]; exact ih1, ?_, ?_, ?_⟩
      · intro n hn
        rw [hlist]
        apply ih2
        rw [bfsVisit_eq]
        obtain ⟨add, h1, h2, h3, h4, h5⟩ := bfsFold_spec (nbrs g u) ⟨rest, disc⟩
        exact (h2 n).mpr (Or.inl hn)
      · intro w hw v hadj
        rw [hlist] at hw ⊢
        exact ih3 w hw v hadj
      · intro n hn
        rcases List.mem_cons.mp hn with rfl | h
        · exact inv.discLt n ((inv.discIff n).mpr (Or.inr (List.mem_cons_self n rest)))
        · exact ih4 n h

theorem bfsOrder_grid (width height : Int) (hW : 1 ≤ width) (hH : 1 ≤ height) :
    (bfsOrder (make_graph width height) 0).Nodup ∧
    (∀ n, n ∈ bfsOrder (make_graph width height) 0 ↔
      n < (make_graph width height).nodes.length) := by
  have hW0 : 0 < width.toNat := by omega
  have hH0 : 0 < height.toNat := by omega
  have hN0 : 0 < (make_graph width height).nodes.length := by
    rw [make_graph_nodes_length]
    have := Nat.mul_le_mul (by omega : 1 ≤ height.toNat) (by omega : 1 ≤ width.toNat)
    omega
  have hinv : BfsInv (make_graph width height) []
      ⟨[0], fun n => n == 0⟩ := by
    refine ⟨?_, by simp, ?_, ?_⟩
    · intro n
      simp [beq_iff_eq]
    · intro u hu
      cases hu
    · intro n hn
      dsimp at hn
      rw [beq_iff_eq] at hn
      omega
  have hcount : (List.range (make_graph width height).nodes.length).countP
      (fun n => !(n == 0)) + 1 = (make_graph width height).nodes.length := by
    have h := countP_exclude (fun _ => true) 0 (make_graph width height).nodes.length
      hN0 rfl
    have hcg : (List.range (make_graph width height).nodes.length).countP
        (fun n => (fun _ => true) n && !(n == 0))
        = (List.range (make_graph width height).nodes.length).countP
            (fun n => !(n == 0)) :=
      List.countP_congr (fun n _ => by simp)
    rw [hcg, List.countP_true, List.length_range] at h
    exact h
  have hmeas : measureB (make_graph width height).nodes.length ⟨[0], fun n => n == 0⟩
      < 2 * (make_graph width height).nodes.length := by
    unfold measureB
    dsimp only
    simp only [List.length_cons, List.length_nil]
    omega
  obtain ⟨hnd, hdiscmem, hclosed, hlt⟩ :=
    bfsRun_complete (make_graph_edges_lt width height)
      (2 * (make_graph width height).nodes.length) [] ⟨[0], fun n => n == 0⟩ hinv hmeas
  have hrooteq : bfsOrder (make_graph width height) 0
      = bfsRun (make_graph width height) (2 * (make_graph width height).nodes.length)
          ⟨[0], fun n => n == 0⟩ := rfl
  have hrootmem : (0 : Nat) ∈ [] ++ bfsRun (make_graph width height)
      (2 * (make_graph width height).nodes.length) ⟨[0], fun n => n == 0⟩ :=
    hdiscmem 0 rfl
  have hreach : ∀ {a b k : Nat}, IsWalk (make_graph width height) a b k →
      a ∈ [] ++ bfsRun (make_graph width height)
        (2 * (make_graph width height).nodes.length) ⟨[0], fun n => n == 0⟩ →
      b ∈ [] ++ bfsRun (make_graph width height)
        (2 * (make_graph width height).nodes.length) ⟨[0], fun n => n == 0⟩ := by
    intro a b k w
    induction w with
    | nil => exact id
    | cons hadj tail ihw => intro ha; exact ihw (hclosed _ ha _ hadj)
  rw [hrooteq]
  constructor
  · simpa using hnd
  · intro n
    constructor
    · intro hn
      exact hlt n hn
    · intro hn
      rw [make_graph_nodes_length] at hn
      obtain ⟨r, hr⟩ : ∃ r, n % width.toNat = r := ⟨_, rfl⟩
      obtain ⟨q, hq⟩ : ∃ q, n / width.toNat = q := ⟨_, rfl⟩
      have hdm := Nat.div_add_mod n width.toNat
      rw [hr, hq] at hdm
      have hrW : r < width.toNat := by
        rw [← hr]
        exact Nat.mod_lt _ hW0
      have hqH : q < height.toNat := by
        rw [← hq]
        exact (Nat.div_lt_iff_lt_mul hW0).mpr hn
      have hueq : n = q * width.toNat + r := by
        have hmc : width.toNat * q = q * width.toNat := Nat.mul_comm _ _
        omega
      have hwalk := grid_walk width height ((0 - r) + (r - 0) + (0 - q) + (q - 0))
        0 0 r q hW0 hH0 hrW hqH rfl
      have h00 : 0 * width.toNat + 0 = 0 := by omega
      rw [h00] at hwalk
      have := hreach hwalk hrootmem
      rw [← hueq] at this
      simpa using this

theorem cellEdges_src {W i : Nat} : ∀ e ∈ cellEdges W i, e.src = i := by
  intro e he
  unfold cellEdges at he
  rcases List.mem_append.mp he with h | h
  · by_cases hc : W ≤ i
    · rw [if_pos hc] at h
      rw [List.mem_singleton.mp h]
    · rw [if_neg hc] at h
      cases h
  · by_cases hc : i % W = 0
    · rw [if_pos hc] at h
      cases h
    · rw [if_neg hc] at h
      rw [List.mem_singleton.mp h]

theorem gridEdges_facts {W N : Nat} (hW : 0 < W) {e : GEdge} (he : e ∈ gridEdges W N) :
    e.src < N ∧ e.weight = 1 ∧ e.dst < e.src ∧
    ((e.dst + W = e.src ∧ W ≤ e.src) ∨ (e.dst + 1 = e.src ∧ ¬ e.src % W = 0)) := by
  rw [mem_gridEdges] at he
  obtain ⟨i, hi, hcase⟩ := he
  rcases hcase with ⟨hWi, rfl⟩ | ⟨hm, rfl⟩
  · exact ⟨hi, rfl, show i - W < i by omega, Or.inl ⟨show i - W + W = i by omega, hWi⟩⟩
  · have hi1 : 1 ≤ i := by
      by_contra h
      have : i = 0 := by omega
      subst this
      simp at hm
    exact ⟨hi, rfl, show i - 1 < i by omega, Or.inr ⟨show i - 1 + 1 = i by omega, hm⟩⟩

theorem gridEdges_nodup {W : Nat} (hW : 0 < W) : ∀ N, (gridEdges W N).Nodup := by
  intro N
  induction N with
  | zero => simp [gridEdges]
  | succ n ih =>
    rw [gridEdges_succ, List.nodup_append]
    refine ⟨ih, ?_, ?_⟩
    · unfold cellEdges
      by_cases h1 : W ≤ n <;> by_cases h2 : n % W = 0 <;>
        simp [h1, h2]
      intro hc
      have hW2 : 2 ≤ W := by
        rcases Nat.lt_or_ge W 2 with h | h
        · interval_cases W
          omega
        · exact h
      omega
    · intro e he he'
      have h1 : e.src < n := by
        obtain ⟨i, hi, hcase⟩ := mem_gridEdges.mp he
        rcases hcase with ⟨_, rfl⟩ | ⟨_, rfl⟩ <;> exact hi
      have h2 : e.src = n := cellEdges_src e he'
      omega

theorem edge_ext : ∀ e e' : GEdge, e.src = e'.src → e.dst = e'.dst →
    e.weight = e'.weight → e = e' := by
  intro e e' h1 h2 h3
  cases e
  cases e'
  dsimp at h1 h2 h3
  subst h1
  subst h2
  subst h3
  rfl

theorem nbrs_nodup_grid (width height : Int) (hW : 0 < width.toNat) (u : Nat) :
    (nbrs (make_graph width height) u).Nodup := by
  unfold nbrs
  rw [make_graph_edges]
  have hnd := gridEdges_nodup hW (height.toNat * width.toNat)
  rw [List.nodup_append]
  refine ⟨?_, ?_, ?_⟩
  · refine (List.nodup_map_iff_inj_on (List.nodup_reverse.mpr (hnd.filter _))).mpr ?_
    intro e he e' he' hdd
    rw [List.mem_reverse, List.mem_filter] at he he'
    exact edge_ext e e'
      (by rw [of_decide_eq_true he.2, of_decide_eq_true he'.2]) hdd
      (by rw [(gridEdges_facts hW he.1).2.1, (gridEdges_facts hW he'.1).2.1])
  · refine (List.nodup_map_iff_inj_on (List.nodup_reverse.mpr (hnd.filter _))).mpr ?_
    intro e he e' he' hss
    rw [List.mem_reverse, List.mem_filter] at he he'
    have hsame : e.src = e'.src := hss
    have hd1 := (gridEdges_facts hW he.1).2.2.2
    have hd2 := (gridEdges_facts hW he'.1).2.2.2
    have hdu := of_decide_eq_true he.2
    have hdu' := of_decide_eq_true he'.2
    exact edge_ext e e' hss (by rw [hdu, hdu'])
      (by rw [(gridEdges_facts hW he.1).2.1, (gridEdges_facts hW he'.1).2.1])
  · intro v hvA hvB
    rw [List.mem_map] at hvA hvB
    obtain ⟨e, he, hdv⟩ := hvA
    obtain ⟨e', he', hsv⟩ := hvB
    rw [List.mem_reverse, List.mem_filter] at he he'
    have hA : e.dst < u := by
      have h := (gridEdges_facts hW he.1).2.2.1
      rw [of_decide_eq_true he.2] at h
      exact h
    have hB : u < e'.src := by
      have h := (gridEdges_facts hW he'.1).2.2.1
      rw [of_decide_eq_true he'.2] at h
      exact h
    omega

theorem grid_inj {width height : Int} {a b : Nat}
    (ha : a < height.toNat * width.toNat) (hb : b < height.toNat * width.toNat)
    (hc : coordAt (make_graph width height) a = coordAt (make_graph width height) b) :
    a = b := by
  rw [coordAt_make_graph ha] at hc
  have hba := grid_coord_inj hb hc.symm
  have hdm := Nat.div_add_mod a width.toNat
  obtain ⟨q, hq⟩ : ∃ q, a / width.toNat = q := ⟨_, rfl⟩
  rw [hq] at hba hdm
  have hmc : width.toNat * q = q * width.toNat := Nat.mul_comm _ _
  omega

theorem grid_no_self_loop {width height : Int} (hW : 0 < width.toNat) :
    ∀ e ∈ (make_graph width height).edges, ¬ e.src = e.dst := by
  intro e he
  rw [make_graph_edges] at he
  have := (gridEdges_facts hW he).2.2.1
  omega

theorem nbrs_countP (g : UnGraph) (u : Nat) (p : Nat → Bool) :
    (nbrs g u).countP p
      = g.edges.countP (fun e => p e.dst && decide (e.src = u))
        + g.edges.countP (fun e => p e.src && decide (e.dst = u)) := by
  unfold nbrs
  rw [List.countP_append, List.countP_map, List.countP_map,
    List.countP_reverse, List.countP_reverse, List.countP_filter,
    List.countP_filter]
  rfl

theorem touch_count (u : Nat) (done : List Nat) (hu : u ∉ done) :
    ∀ l : List GEdge, (∀ e ∈ l, ¬(e.src = u ∧ e.dst = u)) →
      l.countP (fun e => decide (e.src ∈ done ++ [u]) || decide (e.dst ∈ done ++ [u]))
        = l.countP (fun e => decide (e.src ∈ done) || decide (e.dst ∈ done))
          + l.countP (fun e => !(decide (e.dst ∈ done)) && decide (e.src = u))
          + l.countP (fun e => !(decide (e.src ∈ done)) && decide (e.dst = u)) := by
  intro l
  induction l with
  | nil => intro _; simp
  | cons e l ih =>
    intro h
    simp only [List.countP_cons]
    have hih := ih (fun e' he' => h e' (List.mem_cons_of_mem _ he'))
    by_cases h1 : e.src = u <;> by_cases h2 : e.dst = u
    · exact absurd ⟨h1, h2⟩ (h e (List.mem_cons_self e l))
    all_goals
      by_cases h3 : e.src ∈ done <;> by_cases h4 : e.dst ∈ done <;>
        (simp [h1, h2, h3, h4, hu, List.mem_append] at hih ⊢) <;> omega

theorem push_fold (g : UnGraph) (u : Nat) (done : List Nat) :
    ∀ (l : List Nat) (acc : List (Coordinate2D × Coordinate2D)),
      (∀ v ∈ l, ((coordAt g v, coordAt g u) ∈ acc ↔ v ∈ done) ∧
        coordAt g v ≠ coordAt g u) →
      l.foldl (fun acc2 v =>
          if (coordAt g v, coordAt g u) ∈ acc2 then acc2
          else acc2 ++ [(coordAt g u, coordAt g v)]) acc
        = acc ++ (l.filter (fun v => !(decide (v ∈ done)))).map
            (fun v => (coordAt g u, coordAt g v)) := by
  intro l
  induction l with
  | nil =>
    intro acc _
    simp
  | cons v l ih =>
    intro acc h
    rw [List.foldl_cons, List.filter_cons]
    have hv := h v (List.mem_cons_self v l)
    by_cases hvd : v ∈ done
    · rw [if_pos (hv.1.mpr hvd)]
      have hdec : (!(decide (v ∈ done))) = false := by simp [hvd]
      rw [hdec]
      exact ih acc (fun w hw => h w (List.mem_cons_of_mem v hw))
    · rw [if_neg (fun hmem => hvd (hv.1.mp hmem))]
      have hdec : (!(decide (v ∈ done))) = true := by simp [hvd]
      rw [hdec]
      have hnext : ∀ w ∈ l,
          ((coordAt g w, coordAt g u) ∈ acc ++ [(coordAt g u, coordAt g v)] ↔ w ∈ done) ∧
          coordAt g w ≠ coordAt g u := by
        intro w hw
        have hw' := h w (List.mem_cons_of_mem v hw)
        refine ⟨?_, hw'.2⟩
        rw [List.mem_append, List.mem_singleton]
        constructor
        · rintro (hm | hm)
          · exact hw'.1.mp hm
          · exact absurd (congrArg Prod.fst hm) hw'.2
        · intro hm
          exact Or.inl (hw'.1.mpr hm)
      rw [ih (acc ++ [(coordAt g u, coordAt g v)]) hnext]
      simp

theorem jstep {g : UnGraph} {done : List Nat}
    {acc : List (Coordinate2D × Coordinate2D)} {u : Nat}
    (HG : ∀ e ∈ g.edges, e.src < g.nodes.length ∧ e.dst < g.nodes.length)
    (Hinj : ∀ a b : Nat, a < g.nodes.length → b < g.nodes.length →
      coordAt g a = coordAt g b → a = b)
    (Hnsl : ∀ e ∈ g.edges, ¬ e.src = e.dst)
    (Hnbr : (nbrs g u).Nodup)
    (inv : JInv g done acc) (hu : u ∉ done) (huN : u < g.nodes.length) :
    JInv g (done ++ [u])
      ((nbrs g u).foldl (fun acc2 v =>
          if (coordAt g v, coordAt g u) ∈ acc2 then acc2
          else acc2 ++ [(coordAt g u, coordAt g v)]) acc) := by
  have hvfacts : ∀ v ∈ nbrs g u, v < g.nodes.length ∧ v ≠ u := by
    intro v hv
    have hadj := mem_nbrs.mp hv
    refine ⟨adj_lt HG hadj, ?_⟩
    rintro rfl
    obtain ⟨e, he, hor⟩ := hadj
    rcases hor with ⟨hs, hd⟩ | ⟨hs, hd⟩ <;> exact Hnsl e he (by rw [hs, hd])
  have hiff : ∀ v ∈ nbrs g u, ((coordAt g v, coordAt g u) ∈ acc ↔ v ∈ done) ∧
      coordAt g v ≠ coordAt g u := by
    intro v hv
    obtain ⟨hvN, hvu⟩ := hvfacts v hv
    have hadj := mem_nbrs.mp hv
    refine ⟨⟨?_, ?_⟩, ?_⟩
    · intro hm
      obtain ⟨a, b, had, haN, hbN, hab, hpe⟩ := inv.entries _ hm
      have h1 : coordAt g v = coordAt g a := congrArg Prod.fst hpe
      exact (Hinj v a hvN haN h1) ▸ had
    · intro hvdone
      rcases inv.cover v u hadj.symm hvdone with hm | hm
      · exact hm
      · obtain ⟨a, b, had, haN, hbN, hab, hpe⟩ := inv.entries _ hm
        have h1 : coordAt g u = coordAt g a := congrArg Prod.fst hpe
        have hua : u = a := Hinj u a huN haN h1
        exact absurd had (hua ▸ hu)
    · intro hcc
      exact hvu (Hinj v u hvN huN hcc)
  rw [push_fold g u done (nbrs g u) acc hiff]
  have hnewmem : ∀ p ∈ ((nbrs g u).filter (fun v => !(decide (v ∈ done)))).map
      (fun v => (coordAt g u, coordAt g v)),
      ∃ v, v ∈ nbrs g u ∧ v ∉ done ∧ p = (coordAt g u, coordAt g v) := by
    intro p hp
    obtain ⟨v, hvf, hpe⟩ := List.mem_map.mp hp
    obtain ⟨hvn, hvp⟩ := List.mem_filter.mp hvf
    refine ⟨v, hvn, ?_, hpe.symm⟩
    intro hvd
    simp [hvd] at hvp
  refine ⟨?_, ?_, ?_, ?_, ?_⟩
  · intro p hp
    rcases List.mem_append.mp hp with hm | hm
    · obtain ⟨a, b, had, haN, hbN, hab, hpe⟩ := inv.entries _ hm
      exact ⟨a, b, List.mem_append_left _ had, haN, hbN, hab, hpe⟩
    · obtain ⟨v, hvn, hvd, hpe⟩ := hnewmem _ hm
      exact ⟨u, v, List.mem_append_right _ (List.mem_singleton.mpr rfl), huN,
        (hvfacts v hvn).1, mem_nbrs.mp hvn, hpe⟩
  · intro a b hab hadone
    rcases List.mem_append.mp hadone with hm | hm
    · rcases inv.cover a b hab hm with hc | hc
      · exact Or.inl (List.mem_append_left _ hc)
      · exact Or.inr (List.mem_append_left _ hc)
    · rw [List.mem_singleton] at hm
      subst hm
      have hb : b ∈ nbrs g a := mem_nbrs.mpr hab
      by_cases hbd : b ∈ done
      · exact Or.inr (List.mem_append_left _ ((hiff b hb).1.mpr hbd))
      · have hbf : b ∈ (nbrs g a).filter (fun v => !(decide (v ∈ done))) :=
          List.mem_filter.mpr ⟨hb, by simp [hbd]⟩
        exact Or.inl (List.mem_append_right _ (List.mem_map_of_mem _ hbf))
  · intro p q hpq hqp
    rcases List.mem_append.mp hpq with hm1 | hm1 <;>
      rcases List.mem_append.mp hqp with hm2 | hm2
    · exact inv.norev p q hm1 hm2
    · obtain ⟨v, hvn, hvd, hpe⟩ := hnewmem _ hm2
      have hq : q = coordAt g u := congrArg Prod.fst hpe
      have hp' : p = coordAt g v := congrArg Prod.snd hpe
      rw [hp', hq] at hm1
      exact hvd ((hiff v hvn).1.mp hm1)
    · obtain ⟨v, hvn, hvd, hpe⟩ := hnewmem _ hm1
      have hp' : p = coordAt g u := congrArg Prod.fst hpe
      have hq : q = coordAt g v := congrArg Prod.snd hpe
      rw [hq, hp'] at hm2
      exact hvd ((hiff v hvn).1.mp hm2)
    · obtain ⟨v, hvn, hvd, hpe⟩ := hnewmem _ hm1
      obtain ⟨v', hvn', hvd', hpe'⟩ := hnewmem _ hm2
      have h1 : p = coordAt g u := congrArg Prod.fst hpe
      have h2 : q = coordAt g v := congrArg Prod.snd hpe
      have h3 : q = coordAt g u := congrArg Prod.fst hpe'
      exact (hiff v hvn).2 (by rw [← h2, h3])
  · rw [List.nodup_append]
    refine ⟨inv.nodup, ?_, ?_⟩
    · refine (List.nodup_map_iff_inj_on (Hnbr.filter _)).mpr ?_
      intro v hv v' hv' heq
      have hc : coordAt g v = coordAt g v' := congrArg Prod.snd heq
      exact Hinj v v' (hvfacts v (List.mem_filter.mp hv).1).1
        (hvfacts v' (List.mem_filter.mp hv').1).1 hc
    · intro p hp hp'
      obtain ⟨v, hvn, hvd, hpe⟩ := hnewmem _ hp'
      obtain ⟨a, b, had, haN, hbN, hab, hpe2⟩ := inv.entries _ hp
      have h1 : coordAt g u = coordAt g a := by
        have := congrArg Prod.fst hpe
        have h2 := congrArg Prod.fst hpe2
        rw [this] at h2
        exact h2
      exact hu ((Hinj u a huN haN h1) ▸ had)
  · rw [List.length_append, List.length_map, inv.count]
    have hlen : ((nbrs g u).filter (fun v => !(decide (v ∈ done)))).length
        = g.edges.countP (fun e => !(decide (e.dst ∈ done)) && decide (e.src = u))
          + g.edges.countP (fun e => !(decide (e.src ∈ done)) && decide (e.dst = u)) := by
      rw [← List.countP_eq_length_filter]
      exact nbrs_countP g u (fun v => !(decide (v ∈ done)))
    have htc := touch_count u done hu g.edges
      (fun e he hc => Hnsl e he (by rw [hc.1, hc.2]))
    rw [hlen]
    omega

theorem jfold {g : UnGraph}
    (HG : ∀ e ∈ g.edges, e.src < g.nodes.length ∧ e.dst < g.nodes.length)
    (Hinj : ∀ a b : Nat, a < g.nodes.length → b < g.nodes.length →
      coordAt g a = coordAt g b → a = b)
    (Hnsl : ∀ e ∈ g.edges, ¬ e.src = e.dst)
    (Hnbr : ∀ u, (nbrs g u).Nodup) :
    ∀ (order done : List Nat) (acc : List (Coordinate2D × Coordinate2D)),
      JInv g done acc → (done ++ order).Nodup →
      (∀ a ∈ order, a < g.nodes.length) →
      JInv g (done ++ order)
        (order.foldl (fun acc3 u => (nbrs g u).foldl (fun acc2 v =>
            if (coordAt g v, coordAt g u) ∈ acc2 then acc2
            else acc2 ++ [(coordAt g u, coordAt g v)]) acc3) acc) := by
  intro order
  induction order with
  | nil =>
    intro done acc inv _ _
    simpa using inv
  | cons u order ih =>
    intro done acc inv hnd hbound
    rw [List.foldl_cons]
    have hu : u ∉ done := by
      intro humem
      have hdisj := (List.nodup_append.mp hnd).2.2
      exact hdisj humem (List.mem_cons_self u order)
    have inv2 := jstep HG Hinj Hnsl (Hnbr u) inv hu (hbound u (List.mem_cons_self u order))
    have hnd2 : ((done ++ [u]) ++ order).Nodup := by
      have heq : (done ++ [u]) ++ order = done ++ u :: order := by simp
      rw [heq]
      exact hnd
    have hres := ih (done ++ [u]) _ inv2 hnd2
      (fun a ha => hbound a (List.mem_cons_of_mem u ha))
    have heq : (done ++ [u]) ++ order = done ++ u :: order := by simp
    rw [heq] at hres
    exact hres

theorem gridEdges_length_eq (W : Nat) :
    ∀ N, (gridEdges W N).length
      = (List.range N).countP (fun i => decide (W ≤ i))
        + (List.range N).countP (fun i => !(decide (i % W = 0))) := by
  intro N
  induction N with
  | zero => simp [gridEdges]
  | succ n ih =>
    rw [gridEdges_succ, List.length_append, ih, List.range_succ,
      List.countP_append, List.countP_append]
    have hcell : (cellEdges W n).length
        = (if W ≤ n then 1 else 0) + (if n % W = 0 then 0 else 1) := by
      unfold cellEdges
      by_cases h1 : W ≤ n <;> by_cases h2 : n % W = 0 <;> simp [h1, h2]
    have hc1 : [n].countP (fun i => decide (W ≤ i)) = if W ≤ n then 1 else 0 := by
      by_cases h1 : W ≤ n <;> simp [List.countP_cons, h1]
    have hc2 : [n].countP (fun i => !(decide (i % W = 0)))
        = if n % W = 0 then 0 else 1 := by
      by_cases h2 : n % W = 0 <;> simp [List.countP_cons, h2]
    rw [hcell, hc1, hc2]
    omega

theorem countP_le_range (W : Nat) : ∀ N, W ≤ N →
    (List.range N).countP (fun i => decide (W ≤ i)) + W = N := by
  intro N
  induction N with
  | zero =>
    intro h
    simp
    omega
  | succ n ih =>
    intro h
    rw [List.range_succ, List.countP_append]
    by_cases hW : W ≤ n
    · have hih := ih hW
      have hc : [n].countP (fun i => decide (W ≤ i)) = 1 := by
        simp [List.countP_cons, hW]
      omega
    · have hzero : (List.range n).countP (fun i => decide (W ≤ i)) = 0 := by
        apply List.countP_eq_zero.mpr
        intro i hi
        rw [List.mem_range] at hi
        simp
        omega
      have hc : [n].countP (fun i => decide (W ≤ i)) = 0 := by
        simp [List.countP_cons, hW]
      omega

theorem countP_mod (W : Nat) (hW : 0 < W) :
    ∀ k, (List.range (k * W)).countP (fun i => !(decide (i % W = 0))) + k = k * W := by
  intro k
  induction k with
  | zero => simp
  | succ k ih =>
    have hsm : (k + 1) * W = k * W + W := Nat.succ_mul k W
    rw [hsm, List.range_add, List.countP_append, List.countP_map]
    have hshift : (List.range W).countP
        ((fun i => !(decide (i % W = 0))) ∘ (fun j => k * W + j))
        = (List.range W).countP (fun j => !(j == 0)) := by
      apply List.countP_congr
      intro j hj
      rw [List.mem_range] at hj
      have hmod : (k * W + j) % W = j := by
        rw [Nat.add_comm, Nat.add_mul_mod_self_right]
        exact Nat.mod_eq_of_lt hj
      simp only [Function.comp_apply, hmod]
      cases j <;> simp
    have hW1 : (List.range W).countP (fun j => !(j == 0)) + 1 = W := by
      have h := countP_exclude (fun _ => true) 0 W hW rfl
      have hcg : (List.range W).countP (fun n => (fun _ => true) n && !(n == 0))
          = (List.range W).countP (fun j => !(j == 0)) :=
        List.countP_congr (fun n _ => by simp)
      rw [hcg, List.countP_true, List.length_range] at h
      exact h
    rw [hshift]
    omega

/-- C7 (amended): the claim quantifies over all dimensions at least 1, but
for W·H in [16384, 32767] the program panics in `make_graph` before any JSON
is produced (see `C7_overflow_crash`), so the edge-list property is restated
on the i16-safe regime W·H ≤ 16383 where `make_graph` runs in every build
mode: there `graph_to_json` succeeds and its edge list holds each undirected
edge of the graph exactly once — the list has no duplicate entry, no entry
appears together with its reverse, every stored edge is represented in one
of its two orientations, every entry comes from a stored edge, and the
list's length is `2*W*H - W - H`. -/
theorem C7_json_edge_list (width height : Int) (hW : 1 ≤ width) (hH : 1 ≤ height)
    (hA : width * height ≤ 16383) (path : Option (Int × List Nat)) :
    ∃ j : JsonOut, graph_to_json (make_graph width height) path = some j ∧
      j.edges.Nodup ∧
      (∀ p q : Coordinate2D, (p, q) ∈ j.edges → (q, p) ∉ j.edges) ∧
      (∀ e ∈ (make_graph width height).edges,
        (coordAt (make_graph width height) e.src,
          coordAt (make_graph width height) e.dst) ∈ j.edges ∨
        (coordAt (make_graph width height) e.dst,
          coordAt (make_graph width height) e.src) ∈ j.edges) ∧
      (∀ p ∈ j.edges, ∃ e ∈ (make_graph width height).edges,
        p = (coordAt (make_graph width height) e.src,
             coordAt (make_graph width height) e.dst) ∨
        p = (coordAt (make_graph width height) e.dst,
             coordAt (make_graph width height) e.src)) ∧
      ((j.edges.length : Int) = 2 * width * height - width - height) := by
  have hW0 : 0 < width.toNat := by omega
  have hH0 : 0 < height.toNat := by omega
  have hN0 : ¬ (make_graph width height).nodes.length = 0 := by
    rw [make_graph_nodes_length]
    have := Nat.mul_le_mul (by omega : 1 ≤ height.toNat) (by omega : 1 ≤ width.toNat)
    omega
  have hjson : graph_to_json (make_graph width height) path
      = some ⟨(make_graph width height).nodes, jsonEdges (make_graph width height),
          path.map (fun p => p.2.map (coordAt (make_graph width height)))⟩ := by
    unfold graph_to_json
    rw [if_neg hN0]
  obtain ⟨hbnd, hbmem⟩ := bfsOrder_grid width height hW hH
  have HG := make_graph_edges_lt width height
  have Hinj : ∀ a b : Nat, a < (make_graph width height).nodes.length →
      b < (make_graph width height).nodes.length →
      coordAt (make_graph width height) a = coordAt (make_graph width height) b →
      a = b := by
    intro a b ha hb
    rw [make_graph_nodes_length] at ha hb
    exact grid_inj ha hb
  have Hnsl : ∀ e ∈ (make_graph width height).edges, ¬ e.src = e.dst :=
    grid_no_self_loop hW0
  have Hnbr := nbrs_nodup_grid width height hW0
  have hinv0 : JInv (make_graph width height) [] [] := by
    refine ⟨by simp, by simp, by simp, List.nodup_nil, ?_⟩
    symm
    apply List.countP_eq_zero.mpr
    intro e _
    simp
  have hfold := jfold HG Hinj Hnsl Hnbr (bfsOrder (make_graph width height) 0) [] []
    hinv0 (by simpa using hbnd) (fun a ha => (hbmem a).mp ha)
  have hnil : ([] : List Nat) ++ bfsOrder (make_graph width height) 0
      = bfsOrder (make_graph width height) 0 := by simp
  rw [hnil] at hfold
  have hJ : JInv (make_graph width height) (bfsOrder (make_graph width height) 0)
      (jsonEdges (make_graph width height)) := hfold
  refine ⟨_, hjson, hJ.nodup, hJ.norev, ?_, ?_, ?_⟩
  · intro e he
    have hadj : Adj (make_graph width height) e.src e.dst := ⟨e, he, Or.inl ⟨rfl, rfl⟩⟩
    exact hJ.cover e.src e.dst hadj ((hbmem e.src).mpr (HG e he).1)
  · intro p hp
    obtain ⟨a, b, _, _, _, hab, hpe⟩ := hJ.entries p hp
    obtain ⟨e, he, hor⟩ := hab
    rcases hor with ⟨hs, hd⟩ | ⟨hs, hd⟩
    · exact ⟨e, he, Or.inl (by rw [hs, hd]; exact hpe)⟩
    · exact ⟨e, he, Or.inr (by rw [hs, hd]; exact hpe)⟩
  · have hcount := hJ.count
    have hall : (make_graph width height).edges.countP
        (fun e => decide (e.src ∈ bfsOrder (make_graph width height) 0)
          || decide (e.dst ∈ bfsOrder (make_graph width height) 0))
        = (make_graph width height).edges.length := by
      have hcg : (make_graph width height).edges.countP
          (fun e => decide (e.src ∈ bfsOrder (make_graph width height) 0)
            || decide (e.dst ∈ bfsOrder (make_graph width height) 0))
          = (make_graph width height).edges.countP (fun _ => true) :=
        List.countP_congr (fun e he => by
          simp [(hbmem e.src).mpr (HG e he).1])
      rw [hcg, List.countP_true]
    have hedges : (make_graph width height).edges.length
        = (gridEdges width.toNat (height.toNat * width.toNat)).length := by
      rw [make_graph_edges]
    have hlen := gridEdges_length_eq width.toNat (height.toNat * width.toNat)
    have hWN : width.toNat ≤ height.toNat * width.toNat := by
      have := Nat.mul_le_mul_right width.toNat (by omega : 1 ≤ height.toNat)
      omega
    have hc1 := countP_le_range width.toNat (height.toNat * width.toNat) hWN
    have hc2 := countP_mod width.toNat hW0 height.toNat
    have hw' : ((width.toNat : Nat) : Int) = width := Int.toNat_of_nonneg (by omega)
    have hh' : ((height.toNat : Nat) : Int) = height := Int.toNat_of_nonneg (by omega)
    have hprod : ((height.toNat * width.toNat : Nat) : Int) = height * width := by
      push_cast
      rw [hw', hh']
    have hring : 2 * width * height = 2 * (height * width) := by ring
    have hfin : (jsonEdges (make_graph width height)).length
        = (gridEdges width.toNat (height.toNat * width.toNat)).length := by
      rw [hcount, hall, hedges]
    rw [hfin]
    omega

/-- C7 (counterexample): width = height = 128 satisfies the claim's
hypotheses (both dimensions at least 1), yet `graph_to_json` can never
produce an edge list there: `make_graph` already panics in its i16 prologue
in every build mode — `node_count * 2 = 32768` overflows i16 in a checked
build, and in release it wraps to -32768, whose `as usize` cast makes
`UnGraph::with_capacity` request a capacity-overflowing allocation. -/
theorem C7_overflow_crash :
    (1 : Int) ≤ 128 ∧ make_graph_panics 128 128 :=
  ⟨by norm_num, i16_band_panics 128 128 (by norm_num) (by norm_num)⟩

theorem C7_witness :
    ∃ j : JsonOut, graph_to_json (make_graph 2 2) none = some j ∧
      j.edges.Nodup ∧
      (∀ p q : Coordinate2D, (p, q) ∈ j.edges → (q, p) ∉ j.edges) ∧
      (∀ e ∈ (make_graph 2 2).edges,
        (coordAt (make_graph 2 2) e.src, coordAt (make_graph 2 2) e.dst) ∈ j.edges ∨
        (coordAt (make_graph 2 2) e.dst, coordAt (make_graph 2 2) e.src) ∈ j.edges) ∧
      (∀ p ∈ j.edges, ∃ e ∈ (make_graph 2 2).edges,
        p = (coordAt (make_graph 2 2) e.src, coordAt (make_graph 2 2) e.dst) ∨
        p = (coordAt (make_graph 2 2) e.dst, coordAt (make_graph 2 2) e.src)) ∧
      ((j.edges.length : Int) = 2 * 2 * 2 - 2 - 2) :=
  C7_json_edge_list 2 2 (by decide) (by decide) (by decide) none

end RustyPath
